import Mathlib

/-! etable: the bit tensor `etensor.Bits`, the cluster distances of `clust`, the
names of `eplot.PlotTypes`

A shallow embedding of `etensor/bits.go`, `clust/dist.go` and
`eplot/plottypes_string.go`, and a verification of their specification.

Conventions of the embedding

* Go's `int` has 64 bits.  An `int` is an integer `x` with `inInt64 x`, and
  the sums, products and quotients of `etensor` (row counts, lengths, strides
  and offsets) are taken with `wrap64`, Go's two's-complement wrap-around.
  Loop counters and lengths of slices in memory are not wrapped, nor is the
  index `ai*ntot + bi` of `clust`, a position in the matrix `smat`.
* A Go method with a pointer receiver is a function from the receiver's state
  to its new state.  A run-time panic (index out of range, integer division by
  zero, `make` with a negative length) is the result `none`.
* `float64` is the type `Float64` below: sign, significand and exponent for the
  finite values, the two infinities, and NaN.  Comparisons are exact.  The
  operators that round are a parameter (`FloatOps`) of the functions that use
  them; where a claim takes the arithmetic exactly, `Float64.add` is the exact
  sum.
* `for j := 0; j < ln; j++` is a fold over `List.range ln.toNat`.
-/

/-! ## float64 -/

/-- An IEEE-754 binary64 value: `finite neg m e` stands for `±m·2^e`
(`neg` is the sign bit, so both zeros exist), `inf neg` for `±∞`. -/
inductive Float64 where
  | finite (neg : Bool) (m : Nat) (e : Int)
  | inf (neg : Bool)
  | nan
deriving DecidableEq, Repr

namespace Float64

/-- The constant `0`. -/
def zero : Float64 := finite false 0 0

/-- The constant `1`. -/
def one : Float64 := finite false 1 0

/-- Go's `val == 0`: true for `+0` and `-0` only; false for NaN. -/
def eqZero : Float64 → Bool
  | finite _ m _ => m == 0
  | inf _ => false
  | nan => false

end Float64

/-! ## Integer helpers of the Go runtime and of `goki/ki/ints` -/

/-- The values of Go's `int`: the 64-bit two's-complement range. -/
def inInt64 (x : Int) : Prop :=
  -2 ^ 63 ≤ x ∧ x < 2 ^ 63

instance (x : Int) : Decidable (inInt64 x) :=
  inferInstanceAs (Decidable (-2 ^ 63 ≤ x ∧ x < 2 ^ 63))

/-- Go's wrap-around of an integer result to `int`: the value in
`[-2^63, 2^63)` that differs from `x` by a multiple of `2^64`. -/
def wrap64 (x : Int) : Int :=
  (x + 2 ^ 63) % 2 ^ 64 - 2 ^ 63

/-- Go's integer `/`: truncated division, panicking on a zero divisor (the
quotient `MinInt64 / -1` wraps). -/
def goDiv (a b : Int) : Option Int :=
  if b = 0 then none else some (wrap64 (Int.tdiv a b))

/-- The function `ints.MaxInt`. -/
def MaxInt (a b : Int) : Int :=
  if a > b then a else b

/-! ## bitslice.Slice -/

namespace bitslice

/-- Modelled from the spec: the package `bitslice` is not among the sources.
BitStorage is "a packed sequence of booleans of logical length n", addressed by
flat index; the model is the logical sequence. -/
structure Slice where
  bits : List Bool
deriving DecidableEq, Repr

/-- Modelled from the spec: `bitslice.Make(ln, cp)`, a storage of `ln` bits,
all `false` (the capacity hint `cp` has no logical effect). -/
def Make (ln _cp : Int) : Slice :=
  ⟨List.replicate ln.toNat false⟩

/-- Modelled from the spec: the logical length of the storage. -/
def Slice.Len (bs : Slice) : Int :=
  bs.bits.length

/-- Modelled from the spec: `Index(i)` "returns bit at flat position i.
Precondition: 0 <= i < length"; outside it the access is a fault. -/
def Slice.Index (bs : Slice) (idx : Int) : Option Bool :=
  if 0 ≤ idx ∧ idx < bs.Len then bs.bits[idx.toNat]? else none

/-- Modelled from the spec: `Set(i, bool)` "writes bit at position i. Same
precondition." -/
def Slice.Set (bs : Slice) (idx : Int) (val : Bool) : Option Slice :=
  if 0 ≤ idx ∧ idx < bs.Len then some ⟨bs.bits.set idx.toNat val⟩ else none

/-- Modelled from the spec: `SetLen(n)` "resizes the packed buffer to hold
exactly n bits. Existing bits at positions < min(old_len, n) are preserved; new
positions (if growing) are initialized to false."  A length below zero leaves
no bit. -/
def Slice.SetLen (bs : Slice) (ln : Int) : Slice :=
  ⟨bs.bits.take ln.toNat ++ List.replicate (ln.toNat - bs.bits.length) false⟩

/-- Modelled from the spec: `Clone()`, an "independent deep copy". -/
def Slice.Clone (bs : Slice) : Slice :=
  ⟨bs.bits⟩

end bitslice

/-! ## etensor.Shape -/

namespace etensor

/-- Modelled from the spec: the type `Shape` is declared outside the sources
(`bits.go` uses its field `Shp`).  ShapeDescriptor is an "ordered sequence of
dimension sizes", an "ordered sequence of strides" and an "ordered sequence of
dimension names". -/
structure Shape where
  Shp : List Int
  Strd : List Int
  Nms : List String
deriving DecidableEq, Repr

/-- Modelled from the spec: row-major strides, "derived from dims in descending
order", the last dimension varying fastest: the stride of dimension `k` is the
product, as an `int`, of the sizes of the dimensions after `k` (dims `[2,3]`
give `[3,1]`). -/
def RowMajorStrides : List Int → List Int
  | [] => []
  | _ :: rest => wrap64 rest.prod :: RowMajorStrides rest

/-- Modelled from the spec: `Len() == product(dims)`, the product as an `int`. -/
def Shape.Len (sh : Shape) : Int :=
  wrap64 sh.Shp.prod

/-- Modelled from the spec: `Dim(i)`, the size of dimension `i`; a fault when
there is no such dimension. -/
def Shape.Dim (sh : Shape) (i : Int) : Option Int :=
  if 0 ≤ i then sh.Shp[i.toNat]? else none

/-- Modelled from the spec: the row-major flag of the descriptor: the strides
are the row-major strides of the dims. -/
def Shape.IsRowMajor (sh : Shape) : Bool :=
  decide (sh.Strd = RowMajorStrides sh.Shp)

/-- Modelled from the spec: `offset(indices) == Σ indices[k]*strides[k]`, the
sum as an `int`; a rank mismatch is a fault. -/
def Shape.Offset (sh : Shape) (index : List Int) : Option Int :=
  if index.length = sh.Strd.length then
    some (wrap64 (List.zipWith (fun i s => i * s) index sh.Strd).sum)
  else none

/-- The shape holds ints and has no overflow: every dimension size is an `int`
and so is the product of the sizes, so that `Len()` is that product. -/
def Shape.Fits (sh : Shape) : Prop :=
  (∀ d ∈ sh.Shp, inInt64 d) ∧ inInt64 sh.Shp.prod

instance (sh : Shape) : Decidable sh.Fits :=
  inferInstanceAs (Decidable ((∀ d ∈ sh.Shp, inInt64 d) ∧ inInt64 sh.Shp.prod))

/-- Modelled from the spec: `Shape.SetShape(shape, strides, names)`.  "If
strides is nil, row-major strides will be inferred. If names is nil, a slice of
empty strings will be created." (`none` is Go's `nil`.) -/
def Shape.SetShape (_sh : Shape) (shape : List Int) (strides : Option (List Int))
    (names : Option (List String)) : Shape :=
  { Shp := shape
    Strd := strides.getD (RowMajorStrides shape)
    Nms := names.getD (List.replicate shape.length "") }

/-- Modelled from the spec: `CopyShape(cp)`, the shape "copied from another
shape". -/
def Shape.CopyShape (_sh : Shape) (cp : Shape) : Shape :=
  { Shp := cp.Shp, Strd := cp.Strd, Nms := cp.Nms }

/-! ## etensor.Bits -/

/-- The tensor of bits: `type Bits struct { Shape; Values bitslice.Slice }`. -/
structure Bits extends Shape where
  Values : bitslice.Slice
deriving DecidableEq, Repr

/-- The zero value `Bits{}`. -/
def Bits.empty : Bits :=
  { Shp := [], Strd := [], Nms := [], Values := ⟨[]⟩ }

/-- Method `Bits.SetShape`. -/
def Bits.SetShape (tsr : Bits) (shape : List Int) (strides : Option (List Int))
    (names : Option (List String)) : Bits :=
  let sh := tsr.toShape.SetShape shape strides names
  let nln := sh.Len
  { toShape := sh, Values := tsr.Values.SetLen nln }

/-- Function `NewBits`. -/
def NewBits (shape : List Int) (strides : Option (List Int))
    (names : Option (List String)) : Bits :=
  let bt := Bits.empty
  let bt := bt.SetShape shape strides names
  let ln := bt.Len
  { bt with Values := bitslice.Make ln 0 }

/-- Function `NewBitsShape`. -/
def NewBitsShape (shape : Shape) : Bits :=
  let bt := Bits.empty
  let bt : Bits := { bt with toShape := bt.toShape.CopyShape shape }
  let ln := bt.Len
  { bt with Values := bitslice.Make ln 0 }

/-- Method `Bits.Value`. -/
def Bits.Value (tsr : Bits) (i : List Int) : Option Bool := do
  let j ← tsr.Offset i
  tsr.Values.Index j

/-- Method `Bits.Value1D`. -/
def Bits.Value1D (tsr : Bits) (i : Int) : Option Bool :=
  tsr.Values.Index i

/-- Method `Bits.Set`. -/
def Bits.Set (tsr : Bits) (i : List Int) (val : Bool) : Option Bits := do
  let j ← tsr.Offset i
  let vs ← tsr.Values.Set j val
  pure { tsr with Values := vs }

/-- Function `Float64ToBool`. -/
def Float64ToBool (val : Float64) : Bool :=
  let bv := true
  if val.eqZero then false else bv

/-- Function `BoolToFloat64`. -/
def BoolToFloat64 (bv : Bool) : Float64 :=
  if bv then Float64.one else Float64.zero

/-- Method `Bits.FloatVal`. -/
def Bits.FloatVal (tsr : Bits) (i : List Int) : Option Float64 := do
  let j ← tsr.Offset i
  let b ← tsr.Values.Index j
  pure (BoolToFloat64 b)

/-- Method `Bits.SetFloat`. -/
def Bits.SetFloat (tsr : Bits) (i : List Int) (val : Float64) : Option Bits := do
  let j ← tsr.Offset i
  let vs ← tsr.Values.Set j (Float64ToBool val)
  pure { tsr with Values := vs }

/-- Method `Bits.SetString`; `ToBool` is `kit.ToBool` on strings, which gives
the parsed value and whether the parse succeeded. -/
def Bits.SetString (ToBool : String → Bool × Bool) (tsr : Bits) (i : List Int)
    (val : String) : Option Bits :=
  match ToBool val with
  | (bv, true) => do
    let j ← tsr.Offset i
    let vs ← tsr.Values.Set j bv
    pure { tsr with Values := vs }
  | (_, false) => some tsr

/-- Method `Bits.FloatVal1D`. -/
def Bits.FloatVal1D (tsr : Bits) (off : Int) : Option Float64 := do
  let b ← tsr.Values.Index off
  pure (BoolToFloat64 b)

/-- Method `Bits.SetFloat1D`. -/
def Bits.SetFloat1D (tsr : Bits) (off : Int) (val : Float64) : Option Bits := do
  let vs ← tsr.Values.Set off (Float64ToBool val)
  pure { tsr with Values := vs }

/-- Go's `make([]float64, ln)`: `ln` zeros, a panic when `ln` is negative. -/
def makeFloats (ln : Int) : Option (List Float64) :=
  if ln < 0 then none else some (List.replicate ln.toNat Float64.zero)

/-- Method `Bits.Floats1D`. -/
def Bits.Floats1D (tsr : Bits) : Option (List Float64) := do
  let ln := tsr.Len
  let res ← makeFloats ln
  (List.range ln.toNat).foldlM
    (fun (res : List Float64) (j : Nat) => do
      let b ← tsr.Values.Index j
      pure (res.set j (BoolToFloat64 b)))
    res

/-- Method `Bits.SetString1D`; `ToBool` as in `Bits.SetString`. -/
def Bits.SetString1D (ToBool : String → Bool × Bool) (tsr : Bits) (off : Int)
    (val : String) : Option Bits :=
  match ToBool val with
  | (bv, true) => do
    let vs ← tsr.Values.Set off bv
    pure { tsr with Values := vs }
  | (_, false) => some tsr

/-- Method `Bits.AggFunc`. -/
def Bits.AggFunc (tsr : Bits) (fn : Float64 → Float64 → Float64) (ini : Float64) :
    Option Float64 :=
  let ln := tsr.Len
  let ag := ini
  (List.range ln.toNat).foldlM
    (fun (ag : Float64) (j : Nat) => do
      let b ← tsr.Values.Index j
      let val := BoolToFloat64 b
      pure (fn val ag))
    ag

/-- Method `Bits.EvalFunc`.  It has two pointers, the receiver and `res`: the
result is the state of the receiver and the slice behind `res` after the call
(the body has no write to the receiver). -/
def Bits.EvalFunc (tsr : Bits) (fn : Float64 → Float64) (res : List Float64) :
    Option (Bits × List Float64) := do
  let ln := tsr.Len
  let res ← if (res.length : Int) ≠ ln then makeFloats ln else some res
  let res ← (List.range ln.toNat).foldlM
    (fun (res : List Float64) (j : Nat) => do
      let b ← tsr.Values.Index j
      let val := BoolToFloat64 b
      pure (res.set j (fn val)))
    res
  pure (tsr, res)

/-- Method `Bits.SetFunc`. -/
def Bits.SetFunc (tsr : Bits) (fn : Float64 → Float64) : Option Bits := do
  let ln := tsr.Len
  let vs ← (List.range ln.toNat).foldlM
    (fun (vs : bitslice.Slice) (j : Nat) => do
      let b ← vs.Index j
      let val := BoolToFloat64 b
      vs.Set j (Float64ToBool (fn val)))
    tsr.Values
  pure { tsr with Values := vs }

/-- Method `Bits.SetZeros`. -/
def Bits.SetZeros (tsr : Bits) : Option Bits := do
  let ln := tsr.Len
  let vs ← (List.range ln.toNat).foldlM
    (fun (vs : bitslice.Slice) (j : Nat) => vs.Set j false)
    tsr.Values
  pure { tsr with Values := vs }

/-- Method `Bits.Clone`. -/
def Bits.Clone (tsr : Bits) : Bits :=
  let csr := NewBitsShape tsr.toShape
  { csr with Values := tsr.Values.Clone }

/-- Method `Bits.AddRows`. -/
def Bits.AddRows (tsr : Bits) (n : Int) : Option Bits :=
  if !tsr.IsRowMajor then some tsr
  else do
    let cln := tsr.Len
    let rows ← tsr.Dim 0
    let inln ← goDiv cln rows
    let nln := wrap64 (wrap64 (rows + n) * inln)
    pure { tsr with Shp := tsr.Shp.set 0 (wrap64 (rows + n)), Values := tsr.Values.SetLen nln }

/-- Method `Bits.SetNumRows`. -/
def Bits.SetNumRows (tsr : Bits) (rows : Int) : Option Bits :=
  if !tsr.IsRowMajor then some tsr
  else do
    let rows := MaxInt 1 rows
    let cln := tsr.Len
    let crows ← tsr.Dim 0
    let inln ← goDiv cln crows
    let nln := wrap64 (rows * inln)
    pure { tsr with Shp := tsr.Shp.set 0 rows, Values := tsr.Values.SetLen nln }

/-- The data-model invariant of a tensor: the storage holds exactly `Len()`
bits. -/
def Bits.Valid (tsr : Bits) : Prop :=
  tsr.Values.Len = tsr.Len

instance (tsr : Bits) : Decidable tsr.Valid :=
  inferInstanceAs (Decidable (tsr.Values.Len = tsr.Len))

/-- Go's `strconv.ParseBool`, the parser that `kit.ToBool` runs on a string:
the parsed value and whether the string was accepted. -/
def ParseBool (s : String) : Bool × Bool :=
  if s ∈ ["1", "t", "T", "TRUE", "true", "True"] then (true, true)
  else if s ∈ ["0", "f", "F", "FALSE", "false", "False"] then (false, true)
  else (false, false)

/-! ## Tensors in memory

`Values` is a Go slice: a `Bits` refers to the buffer behind it, and two
tensors whose `Values` refer to one buffer see each other's writes.  To speak
of that, the buffers live in a memory and a tensor holds an address. -/

/-- The memory of storage buffers, by address. -/
abbrev Heap := List bitslice.Slice

/-- A tensor in memory: its shape and the address of the buffer behind
`Values`. -/
structure BitsRef extends Shape where
  Values : Nat
deriving DecidableEq, Repr

/-- Allocation of a new buffer: the memory after it and the new address. -/
def Heap.alloc (h : Heap) (vs : bitslice.Slice) : Heap × Nat :=
  (h ++ [vs], h.length)

/-- The tensor state that a reference stands for; `none` for a dangling
address. -/
def Heap.read (h : Heap) (r : BitsRef) : Option Bits := do
  let vs ← h[r.Values]?
  pure { toShape := r.toShape, Values := vs }

/-- Function `Bits.Value1D` on a tensor in memory. -/
def Heap.Value1D (h : Heap) (r : BitsRef) (i : Int) : Option Bool := do
  let tsr ← h.read r
  tsr.Value1D i

/-- Function `NewBitsShape` in memory: `bitslice.Make` allocates the buffer. -/
def Heap.NewBitsShape (h : Heap) (shape : Shape) : Heap × BitsRef :=
  let bt := etensor.NewBitsShape shape
  let (h, a) := h.alloc bt.Values
  (h, { toShape := bt.toShape, Values := a })

/-- Method `Bits.Clone` in memory: `NewBitsShape` allocates a buffer, then
`tsr.Values.Clone()` allocates the copy that `csr.Values` is set to. -/
def Heap.Clone (h : Heap) (tsr : BitsRef) : Option (Heap × BitsRef) := do
  let src ← h[tsr.Values]?
  let (h, csr) := h.NewBitsShape tsr.toShape
  let (h, a) := h.alloc src.Clone
  pure (h, { csr with Values := a })

/-- The element setters and whole-tensor setters of `Bits`. -/
inductive Setter where
  | Set (i : List Int) (val : Bool)
  | SetFloat (i : List Int) (val : Float64)
  | SetString (ToBool : String → Bool × Bool) (i : List Int) (val : String)
  | SetFloat1D (off : Int) (val : Float64)
  | SetString1D (ToBool : String → Bool × Bool) (off : Int) (val : String)
  | SetFunc (fn : Float64 → Float64)
  | SetZeros

/-- The method that a setter names, on a tensor state. -/
def Setter.run : Setter → Bits → Option Bits
  | .Set i val, tsr => tsr.Set i val
  | .SetFloat i val, tsr => tsr.SetFloat i val
  | .SetString ToBool i val, tsr => tsr.SetString ToBool i val
  | .SetFloat1D off val, tsr => tsr.SetFloat1D off val
  | .SetString1D ToBool off val, tsr => tsr.SetString1D ToBool off val
  | .SetFunc fn, tsr => tsr.SetFunc fn
  | .SetZeros, tsr => tsr.SetZeros

/-- A setter called on a tensor in memory: it writes the buffer behind the
tensor's `Values` in place. -/
def Heap.apply (h : Heap) (op : Setter) (r : BitsRef) : Option Heap := do
  let tsr ← h.read r
  let tsr ← op.run tsr
  pure (h.set r.Values tsr.Values)

end etensor

/-! ## Exact addition on float64 -/

namespace Float64

/-- The float that a count converts to, `float64(n)`: `n·2^0`. -/
def ofNat (n : Nat) : Float64 :=
  finite false n 0

/-- The signed significand of `±m·2^x`, written at an exponent `e ≤ x`. -/
def scaled (neg : Bool) (m : Nat) (x e : Int) : Int :=
  (if neg then -1 else 1) * ((m * 2 ^ (x - e).toNat : Nat) : Int)

/-- Go's `a + b` with the arithmetic taken exactly, that is without rounding
(IEEE-754 gives this very result whenever it has at most 53 significant bits
and the exponent is in range).  A zero sum is `-0` only for `-0 + -0`;
`∞ + -∞` and every sum with NaN are NaN. -/
def add : Float64 → Float64 → Float64
  | finite s1 m1 e1, finite s2 m2 e2 =>
    let e := min e1 e2
    let c := scaled s1 m1 e1 e + scaled s2 m2 e2 e
    if c = 0 then finite (s1 && s2) 0 e else finite (decide (c < 0)) c.natAbs e
  | nan, _ => nan
  | _, nan => nan
  | inf s1, inf s2 => if s1 = s2 then inf s1 else nan
  | inf s, finite _ _ _ => inf s
  | finite _ _ _, inf s => inf s

end Float64

namespace etensor

/-! ## Sequences of calls -/

/-- A call that changes or copies a tensor: `SetShape`, `AddRows`,
`SetNumRows`, `Clone` or one of the setters. -/
inductive Op where
  | SetShape (shape : List Int) (strides : Option (List Int)) (names : Option (List String))
  | AddRows (n : Int)
  | SetNumRows (rows : Int)
  | Clone
  | setter (s : Setter)

/-- The tensor that a call leaves to go on with: the receiver after the call,
for `Clone` the clone; `none` when the call panics. -/
def Op.run : Op → Bits → Option Bits
  | .SetShape shape strides names, tsr => some (tsr.SetShape shape strides names)
  | .AddRows n, tsr => tsr.AddRows n
  | .SetNumRows rows, tsr => tsr.SetNumRows rows
  | .Clone, tsr => some tsr.Clone
  | .setter s, tsr => s.run tsr

/-- A sequence of calls, one after the other. -/
def runOps (ops : List Op) (tsr : Bits) : Option Bits :=
  ops.foldlM (fun t op => op.run t) tsr

/-- The states that `NewBits` or `NewBitsShape`, followed by a sequence of
calls, can end in. -/
def Reachable (tsr : Bits) : Prop :=
  ∃ (init : Bits) (ops : List Op),
    ((∃ shape strides names, init = NewBits shape strides names) ∨
      (∃ sh, init = NewBitsShape sh)) ∧
    runOps ops init = some tsr

/-- The form in which every call keeps the length invariant: when `Len()` is
not negative, the storage holds exactly `Len()` bits. -/
def LenInv (tsr : Bits) : Prop :=
  0 ≤ tsr.Len → tsr.Valid

/-- The calls that resize along the outer dimension: `AddRows` and
`SetNumRows`, which divide `Len()` by `Dim(0)`. -/
def Op.grows : Op → Bool
  | .AddRows _ => true
  | .SetNumRows _ => true
  | _ => false

/-- No `AddRows` or `SetNumRows` call of the sequence starts from a shape
whose product of dimension sizes has overflowed `int`. -/
def fitsAlong : List Op → Bits → Bool
  | [], _ => true
  | op :: ops, tsr =>
    (!op.grows || decide tsr.Fits) &&
      (match op.run tsr with
        | some t => fitsAlong ops t
        | none => true)

/-! ## The matrix interface of gonum -/

/-- The wrapper `mat.Transpose` of gonum: `type Transpose struct { Matrix Matrix }`. -/
structure Transpose where
  Matrix : Bits
deriving DecidableEq, Repr

/-- What a call of a method that only logs and returns leaves behind: the
receiver, the lines written with `log.Println`, and the returned value. -/
structure Logged (α : Type) where
  tsr : Bits
  log : List String
  ret : α

/-- Method `Bits.Dims`. -/
def Bits.Dims (tsr : Bits) : Logged (Int × Int) :=
  { tsr := tsr
    log := ["etensor Dims gonum Matrix call made on Bits Tensor -- not supported"]
    ret := (0, 0) }

/-- Method `Bits.At`. -/
def Bits.At (tsr : Bits) (_i _j : Int) : Logged Float64 :=
  { tsr := tsr
    log := ["etensor At gonum Matrix call made on Bits Tensor -- not supported"]
    ret := Float64.zero }

/-- Method `Bits.T`. -/
def Bits.T (tsr : Bits) : Logged Transpose :=
  { tsr := tsr
    log := ["etensor T gonum Matrix call made on Bits Tensor -- not supported"]
    ret := { Matrix := tsr } }

/-! ## Multi-indices -/

/-- A multi-index is valid for the dims: same rank and `0 ≤ idx[k] < dims[k]`
for every `k`. -/
def validIndex : List Int → List Int → Bool
  | [], [] => true
  | i :: idx, d :: dims => decide (0 ≤ i ∧ i < d) && validIndex idx dims
  | _, _ => false

end etensor

/-! ## Order and rounding on float64 -/

namespace Float64

/-- The largest finite float64, `math.MaxFloat64`: `(2^53 - 1)·2^971`. -/
def MaxFloat64 : Float64 :=
  finite false (2 ^ 53 - 1) 971

/-- Go's unary minus. -/
def neg : Float64 → Float64
  | finite s m e => finite (!s) m e
  | inf s => inf (!s)
  | nan => nan

/-- Go's `a < b`: the order of the extended reals, false when either side is
NaN.  Two finite values are compared at their smaller exponent. -/
def lt : Float64 → Float64 → Bool
  | finite s1 m1 e1, finite s2 m2 e2 =>
    decide (scaled s1 m1 e1 (min e1 e2) < scaled s2 m2 e2 (min e1 e2))
  | finite _ _ _, inf s => !s
  | inf s, finite _ _ _ => s
  | inf s1, inf s2 => s1 && !s2
  | nan, _ => false
  | _, nan => false

/-- Go's `a <= b`. -/
def le : Float64 → Float64 → Bool
  | nan, _ => false
  | _, nan => false
  | a, b => !(lt b a)

/-- Go's `a == b`. -/
def eq : Float64 → Float64 → Bool
  | nan, _ => false
  | _, nan => false
  | a, b => !(lt a b) && !(lt b a)

/-- Whether the value is NaN. -/
def isNaN : Float64 → Bool
  | nan => true
  | _ => false

/-- Whether a value of the model is a float64: a finite value has a significand
below `2^53` and an exponent of at most 971 (the least exponent plays no part
here). -/
def is64 : Float64 → Bool
  | finite _ m e => decide (m < 2 ^ 53) && decide (e ≤ 971)
  | _ => true

/-- The quotient `±(n/d)·2^e` of positive `n`, `d`, rounded to nearest, ties to
even, at 53 significant bits; the exponent range is not bounded. -/
def roundQuot (s : Bool) (n d : Nat) (e : Int) : Float64 :=
  let k := 55 + Nat.log2 d - Nat.log2 n
  let q := n * 2 ^ k / d
  let sticky := decide (n * 2 ^ k % d ≠ 0)
  let drop := Nat.log2 q + 1 - 53
  let m := q / 2 ^ drop
  let r := q % 2 ^ drop
  let half := 2 ^ (drop - 1)
  let up := decide (half < r) || (decide (r = half) && (sticky || decide (m % 2 = 1)))
  finite s (if up then m + 1 else m) (e - k + drop)

/-- Go's `a / b`, rounded to nearest at 53 bits (no overflow to infinity and no
gradual underflow). -/
def div : Float64 → Float64 → Float64
  | nan, _ => nan
  | _, nan => nan
  | inf _, inf _ => nan
  | inf s1, finite s2 _ _ => inf (xor s1 s2)
  | finite s1 _ e1, inf s2 => finite (xor s1 s2) 0 e1
  | finite s1 m1 e1, finite s2 m2 e2 =>
    if m2 = 0 then (if m1 = 0 then nan else inf (xor s1 s2))
    else if m1 = 0 then finite (xor s1 s2) 0 e1
    else roundQuot (xor s1 s2) m1 m2 (e1 - e2)

end Float64

/-- The float64 operators that round.  The functions of `dist.go` take them as
a parameter, so that what is proved of them holds for every rounding. -/
structure FloatOps where
  add : Float64 → Float64 → Float64
  sub : Float64 → Float64 → Float64
  div : Float64 → Float64 → Float64
  ofInt : Int → Float64

/-- Operators to evaluate with: exact sum and difference, the quotient rounded
to nearest at 53 bits, the conversion exact. -/
def FloatOps.sample : FloatOps where
  add := Float64.add
  sub := fun a b => a.add b.neg
  div := Float64.div
  ofInt := fun n => Float64.finite (decide (n < 0)) n.natAbs 0

/-! ## clust: distances between clusters -/

namespace clust

/-- Go's `s[i]` on a slice: a panic when `i` is out of range. -/
def sliceAt {α : Type} (s : List α) (i : Int) : Option α :=
  if 0 ≤ i then s[i.toNat]? else none

/-- Go's `make([]int, n)`: `n` zeros, a panic when `n` is negative. -/
def makeInts (n : Int) : Option (List Int) :=
  if n < 0 then none else some (List.replicate n.toNat 0)

/-- The values of `ix` in `for ix := 0; ix < n; ix++`. -/
def countTo (n : Int) : List Int :=
  (List.range n.toNat).map Int.ofNat

/-- Function `MinDist`. -/
def MinDist (aix bix : List Int) (ntot : Int) (smat : List Float64) : Option Float64 :=
  let md := Float64.MaxFloat64
  aix.foldlM (fun md ai =>
    bix.foldlM (fun md bi => do
      let d ← sliceAt smat (ai * ntot + bi)
      pure (if d.lt md then d else md)) md) md

/-- Function `MaxDist`. -/
def MaxDist (aix bix : List Int) (ntot : Int) (smat : List Float64) : Option Float64 :=
  let md := Float64.MaxFloat64.neg
  aix.foldlM (fun md ai =>
    bix.foldlM (fun md bi => do
      let d ← sliceAt smat (ai * ntot + bi)
      pure (if md.lt d then d else md)) md) md

/-- Function `AvgDist`. -/
def AvgDist (ops : FloatOps) (aix bix : List Int) (ntot : Int) (smat : List Float64) :
    Option Float64 := do
  let md := Float64.zero
  let n : Int := 0
  let (md, n) ← aix.foldlM (fun st ai =>
    bix.foldlM (fun (st : Float64 × Int) bi => do
      let d ← sliceAt smat (ai * ntot + bi)
      pure (ops.add st.1 d, st.2 + 1)) st) (md, n)
  pure (if n > 0 then ops.div md (ops.ofInt n) else md)

/-- The loop of `ContrastDist` that fills `oix`: the slice and the counter
`octr` after it, a panic when a write `oix[octr] = ix` is out of range.
`abmap` is the map by its keys. -/
def ContrastDist.fill (abmap : List Int) (ntot : Int) (oix : List Int) :
    Option (List Int × Nat) :=
  (countTo ntot).foldlM (fun (st : List Int × Nat) ix =>
    if ix ∉ abmap then
      if st.2 < st.1.length then some (st.1.set st.2 ix, st.2 + 1) else none
    else some st) (oix, 0)

/-- Function `ContrastDist`. -/
def ContrastDist (ops : FloatOps) (aix bix : List Int) (ntot : Int) (smat : List Float64) :
    Option Float64 := do
  let wd ← AvgDist ops aix bix ntot smat
  let nab : Int := aix.length + bix.length
  let abix := aix ++ bix
  let abmap := abix
  let oix ← makeInts (ntot - nab)
  let (oix, _) ← ContrastDist.fill abmap ntot oix
  let bd ← AvgDist ops abix oix ntot smat
  pure (ops.sub bd wd)

/-- The entries `smat[xi*ntot+yi]` over all pairs, `xi` in `x` outermost, in
order. -/
def pairEntries (x y : List Int) (ntot : Int) (smat : List Float64) : List Float64 :=
  x.flatMap fun xi => y.map fun yi => (sliceAt smat (xi * ntot + yi)).getD Float64.zero

/-- The arithmetic mean of a list of floats, summed from the left starting at
`0.0`; `0.0` for the empty list. -/
def mean (ops : FloatOps) (ds : List Float64) : Float64 :=
  if ds.length > 0 then ops.div (ds.foldl ops.add Float64.zero) (ops.ofInt ds.length)
  else Float64.zero

/-- The indices in `[0, ntot)` that occur in neither cluster, ascending. -/
def outside (abix : List Int) (ntot : Int) : List Int :=
  (countTo ntot).filter fun ix => decide (ix ∉ abix)

end clust

/-! ## eplot: the names of the plot types -/

namespace eplot

/-- Go's type `string`. -/
abbrev GoString := String

/-- The enum `PlotTypes`, an integer type declared outside the sources. -/
abbrev PlotTypes := Int

/-- The constants, as the index check of `plottypes_string.go` fixes them. -/
def XY : PlotTypes := 0

/-- See `XY`. -/
def Bar : PlotTypes := 1

/-- See `XY`. -/
def PlotTypesN : PlotTypes := 2

/-- Constant `_PlotTypes_name`. -/
def _PlotTypes_name : GoString := "XYBarPlotTypesN"

/-- Variable `_PlotTypes_index`. -/
def _PlotTypes_index : List Nat := [0, 2, 5, 15]

/-- Go's `s[lo:hi]` on a string of one-byte characters. -/
def substr (s : GoString) (lo hi : Nat) : GoString :=
  String.mk ((s.data.drop lo).take (hi - lo))

/-- Go's `strconv.FormatInt(i, 10)`. -/
def FormatInt10 (i : Int) : GoString :=
  if i < 0 then "-" ++ Nat.repr i.natAbs else Nat.repr i.natAbs

/-- The name at position `j` of the table. -/
def nameAt (j : Nat) : GoString :=
  substr _PlotTypes_name (_PlotTypes_index.getD j 0) (_PlotTypes_index.getD (j + 1) 0)

/-- Method `PlotTypes.String`. -/
def PlotTypes.String (i : PlotTypes) : GoString :=
  if i < 0 ∨ i ≥ ((_PlotTypes_index.length - 1 : Nat) : Int) then
    "PlotTypes(" ++ FormatInt10 i ++ ")"
  else nameAt i.toNat

/-- Method `PlotTypes.FromString`: the receiver after the call and the error
(`none` is `nil`). -/
def PlotTypes.FromString (i : PlotTypes) (s : GoString) : PlotTypes × Option GoString :=
  match (List.range (_PlotTypes_index.length - 1)).find? (fun j => s == nameAt j) with
  | some j => ((j : Int), none)
  | none => (i, some ("String: " ++ s ++ " is not a valid option for type: PlotTypes"))

end eplot

/-! ## The storage model: reads, writes and resizing -/

namespace bitslice

theorem Slice.len_nonneg (bs : Slice) : 0 ≤ bs.Len := by
  unfold Slice.Len; omega

theorem Slice.set_eq_some (bs : Slice) (i : Int) (v : Bool) (h0 : 0 ≤ i) (h1 : i < bs.Len) :
    bs.Set i v = some ⟨bs.bits.set i.toNat v⟩ := by
  simp [Slice.Set, h0, h1]

theorem Slice.set_len (bs bs' : Slice) (i : Int) (v : Bool) (h : bs.Set i v = some bs') :
    bs'.Len = bs.Len := by
  unfold Slice.Set at h
  split at h
  · cases h; simp [Slice.Len]
  · cases h

theorem Slice.index_set_self (bs bs' : Slice) (i : Int) (v : Bool) (h : bs.Set i v = some bs') :
    bs'.Index i = some v := by
  unfold Slice.Set at h
  split at h
  · rename_i hi
    cases h
    have hlt : i.toNat < bs.bits.length := by
      have := hi.2; unfold Slice.Len at this; omega
    simp [Slice.Index, Slice.Len, hi.1, hlt]
    unfold Slice.Len at hi; omega
  · cases h

theorem Slice.index_set_ne (bs bs' : Slice) (i j : Int) (v : Bool) (h : bs.Set i v = some bs')
    (hij : j ≠ i) : bs'.Index j = bs.Index j := by
  unfold Slice.Set at h
  split at h
  · rename_i hi
    cases h
    unfold Slice.Index Slice.Len
    simp only [List.length_set]
    split
    · rename_i hj
      rw [List.getElem?_set_ne]
      omega
    · rfl
  · cases h

theorem Slice.index_eq_some (bs : Slice) (j : Int) (h0 : 0 ≤ j) (h1 : j < bs.Len) :
    ∃ b, bs.Index j = some b ∧ bs.bits[j.toNat]? = some b := by
  have hlt : j.toNat < bs.bits.length := by unfold Slice.Len at h1; omega
  refine ⟨bs.bits[j.toNat], ?_, ?_⟩
  · simp [Slice.Index, h0, h1, List.getElem?_eq_getElem hlt]
  · exact List.getElem?_eq_getElem hlt

theorem Slice.setLen_len (bs : Slice) (ln : Int) (h : 0 ≤ ln) : (bs.SetLen ln).Len = ln := by
  unfold Slice.SetLen Slice.Len
  simp only [List.length_append, List.length_take, List.length_replicate]
  omega

theorem Slice.setLen_index_old (bs : Slice) (ln j : Int) (hj : j < bs.Len) (hln : bs.Len ≤ ln) :
    (bs.SetLen ln).Index j = bs.Index j := by
  have hl := Slice.setLen_len bs ln (le_trans bs.len_nonneg hln)
  unfold Slice.Index
  rw [hl]
  by_cases h0 : 0 ≤ j
  · have h1 : j < ln := lt_of_lt_of_le hj hln
    simp only [h0, h1, hj, and_self, if_true]
    unfold Slice.SetLen
    unfold Slice.Len at hj hln
    simp only
    rw [List.getElem?_append_left (by simp; omega), List.getElem?_take]
    rw [if_pos (by omega)]
  · simp [h0]

theorem Slice.setLen_index_new (bs : Slice) (ln j : Int) (hj : bs.Len ≤ j) (hln : j < ln) :
    (bs.SetLen ln).Index j = some false := by
  have h0 : 0 ≤ j := le_trans bs.len_nonneg hj
  have hl := Slice.setLen_len bs ln (by omega)
  unfold Slice.Index
  rw [hl]
  simp only [h0, hln, and_self, if_true]
  unfold Slice.SetLen
  unfold Slice.Len at hj
  simp only
  rw [List.getElem?_append_right (by simp; omega), List.getElem?_replicate]
  rw [if_pos (by simp; omega)]

end bitslice

/-! ## Element access through the float view -/

namespace etensor

/-- C1: on a tensor whose storage holds `Len()` bits, for a flat index
`0 ≤ i < Len()` and any float `v`, `SetFloat1D(i, v)` succeeds and afterwards
`FloatVal1D(i)` is `1` when `v != 0` and `0` otherwise; and setting index `i`
with `1.0`, then `5.5`, then `1.0` ends in the very state that a single
`SetFloat1D(i, 1.0)` gives. -/
theorem Bits.setFloat1D_then_floatVal1D (tsr : Bits) (i : Int) (v : Float64)
    (hv : tsr.Valid) (h0 : 0 ≤ i) (h1 : i < tsr.Len) :
    (∃ t, tsr.SetFloat1D i v = some t ∧
      t.FloatVal1D i = some (if v.eqZero = false then Float64.one else Float64.zero)) ∧
    (∃ t, tsr.SetFloat1D i Float64.one = some t ∧
      ((tsr.SetFloat1D i Float64.one).bind fun a =>
        (a.SetFloat1D i (Float64.finite false 11 (-1))).bind fun b =>
          b.SetFloat1D i Float64.one) = some t) := by
  have h1' : i < tsr.Values.Len := by rw [hv]; exact h1
  have hset : ∀ (bs : bitslice.Slice) (w : Float64), i < bs.Len →
      ∃ bs', bs.Set i (Float64ToBool w) = some bs' ∧ bs'.Len = bs.Len ∧
        bs'.bits = bs.bits.set i.toNat (Float64ToBool w) := by
    intro bs w hlt
    exact ⟨_, bitslice.Slice.set_eq_some bs i _ h0 hlt, by simp [bitslice.Slice.Len], rfl⟩
  constructor
  · obtain ⟨bs', hs, -, -⟩ := hset tsr.Values v h1'
    refine ⟨{ tsr with Values := bs' }, by simp [Bits.SetFloat1D, hs], ?_⟩
    have hi := bitslice.Slice.index_set_self _ _ _ _ hs
    simp only [Bits.FloatVal1D, hi, Float64ToBool, BoolToFloat64]
    cases v.eqZero <;> rfl
  · obtain ⟨a, ha, hla, hba⟩ := hset tsr.Values Float64.one h1'
    obtain ⟨b, hb, hlb, hbb⟩ := hset a (Float64.finite false 11 (-1)) (by rw [hla]; exact h1')
    obtain ⟨c, hc, -, hbc⟩ := hset b Float64.one (by rw [hlb, hla]; exact h1')
    refine ⟨{ tsr with Values := a }, by simp [Bits.SetFloat1D, ha], ?_⟩
    have hca : c = a := by
      cases c; cases a
      simp only at hbc hba
      simp only [bitslice.Slice.mk.injEq]
      rw [hbc, hbb, hba]
      simp [List.set_set]
    simp [Bits.SetFloat1D, ha, hb, hc, hca]

/-- C1 at dims `[2,3]`, index 4, `v = 5.5`: the float view reads `1`. -/
theorem Bits.setFloat1D_then_floatVal1D_witness :
    ∃ t, (NewBits [2, 3] none none).SetFloat1D 4 (Float64.finite false 11 (-1)) = some t ∧
      t.FloatVal1D 4 = some Float64.one :=
  (Bits.setFloat1D_then_floatVal1D (NewBits [2, 3] none none) 4
    (Float64.finite false 11 (-1)) (by decide) (by decide) (by decide)).1

end etensor

/-! ## Growth along the outer dimension -/

theorem wrap64_of_inInt64 (x : Int) (h : inInt64 x) : wrap64 x = x := by
  unfold inInt64 at h
  unfold wrap64
  omega

theorem inInt64_wrap64 (x : Int) : inInt64 (wrap64 x) := by
  unfold inInt64 wrap64
  omega

/-- A factor of an `int` product, next to a positive factor, is an `int`. -/
theorem inInt64_of_mul (d p : Int) (hd : 1 ≤ d) (h : inInt64 (d * p)) : inInt64 p := by
  unfold inInt64 at *
  constructor
  · by_contra hc
    have : d * p ≤ 1 * p := Int.mul_le_mul_of_nonpos_right hd (by omega)
    omega
  · by_contra hc
    have : 1 * p ≤ d * p := Int.mul_le_mul_of_nonneg_right hd (by omega)
    omega

theorem wrap64_modEq (x : Int) : wrap64 x ≡ x [ZMOD 2 ^ 64] := by
  unfold wrap64 Int.ModEq
  omega

theorem wrap64_congr (x y : Int) (h : x ≡ y [ZMOD 2 ^ 64]) : wrap64 x = wrap64 y := by
  unfold wrap64
  have h' : (x + 2 ^ 63) % 2 ^ 64 = (y + 2 ^ 63) % 2 ^ 64 := Int.ModEq.add_right _ h
  rw [h']

/-- Wrapping a factor first does not change the wrapped product. -/
theorem wrap64_mul_wrap64 (a b : Int) : wrap64 (a * wrap64 b) = wrap64 (a * b) :=
  wrap64_congr _ _ (Int.ModEq.mul_left a (wrap64_modEq b))

namespace bitslice

theorem Slice.setLen_len_max (bs : Slice) (ln : Int) : (bs.SetLen ln).Len = max ln 0 := by
  unfold Slice.SetLen Slice.Len
  simp only [List.length_append, List.length_take, List.length_replicate]
  omega

/-- Resizing keeps the bit at every position below both lengths. -/
theorem Slice.setLen_index_lt (bs : Slice) (ln j : Int) (hj : j < bs.Len) (hln : j < ln) :
    (bs.SetLen ln).Index j = bs.Index j := by
  unfold Slice.Index
  rw [Slice.setLen_len_max]
  by_cases h0 : 0 ≤ j
  · have h1 : j < max ln 0 := lt_of_lt_of_le hln (le_max_left _ _)
    simp only [h0, h1, hj, and_self, if_true]
    unfold Slice.SetLen
    unfold Slice.Len at hj
    simp only
    rw [List.getElem?_append_left (by simp; omega), List.getElem?_take]
    rw [if_pos (by omega)]
  · simp [h0]

end bitslice

namespace etensor

theorem Shape.shp_of_dim_zero (sh : Shape) (rows : Int) (hd : sh.Dim 0 = some rows) :
    ∃ rest, sh.Shp = rows :: rest := by
  unfold Shape.Dim at hd
  cases hs : sh.Shp with
  | nil => simp [hs] at hd
  | cons d rest =>
    simp [hs] at hd
    exact ⟨rest, by rw [hd]⟩

/-- Without overflow `Len()` is the product of the dimension sizes. -/
theorem Shape.len_of_fits (sh : Shape) (hfit : sh.Fits) : sh.Len = sh.Shp.prod :=
  wrap64_of_inInt64 _ hfit.2

/-- The inner length that `AddRows` and `SetNumRows` compute: without overflow
in `Len()`, `cln / rows` is the product of the inner dimension sizes, wrapped. -/
theorem goDiv_len (rows p : Int) (hr : rows ≠ 0) (hfit : inInt64 (rows * p)) :
    goDiv (wrap64 (rows * p)) rows = some (wrap64 p) ∧ (wrap64 (rows * p)).tdiv rows = p := by
  have h := Int.mul_tdiv_cancel_left p hr
  rw [wrap64_of_inInt64 _ hfit]
  simp [goDiv, hr, h]

/-- What `AddRows` does on a row-major tensor with rows whose length has not
overflowed. -/
theorem Bits.addRows_eq (tsr : Bits) (n rows : Int) (rest : List Int)
    (hrm : tsr.IsRowMajor = true) (hs : tsr.Shp = rows :: rest) (hne : rows ≠ 0)
    (hfit : inInt64 (rows * rest.prod)) :
    tsr.AddRows n = some { tsr with
      Shp := wrap64 (rows + n) :: rest,
      Values := tsr.Values.SetLen (wrap64 (wrap64 (rows + n) * rest.prod)) } := by
  have hlen : tsr.Len = wrap64 (rows * rest.prod) := by simp [Shape.Len, hs]
  have hd : tsr.Dim 0 = some rows := by simp [Shape.Dim, hs]
  simp [Bits.AddRows, hrm, hd, hlen, (goDiv_len rows rest.prod hne hfit).1, wrap64_mul_wrap64, hs]

/-- What `SetNumRows` does on a row-major tensor with rows whose length has
not overflowed. -/
theorem Bits.setNumRows_eq (tsr : Bits) (r rows : Int) (rest : List Int)
    (hrm : tsr.IsRowMajor = true) (hs : tsr.Shp = rows :: rest) (hne : rows ≠ 0)
    (hfit : inInt64 (rows * rest.prod)) :
    tsr.SetNumRows r = some { tsr with
      Shp := MaxInt 1 r :: rest,
      Values := tsr.Values.SetLen (wrap64 (MaxInt 1 r * rest.prod)) } := by
  have hlen : tsr.Len = wrap64 (rows * rest.prod) := by simp [Shape.Len, hs]
  have hd : tsr.Dim 0 = some rows := by simp [Shape.Dim, hs]
  simp [Bits.SetNumRows, hrm, hd, hlen, (goDiv_len rows rest.prod hne hfit).1,
    wrap64_mul_wrap64, hs]

theorem MaxInt_eq_max (a b : Int) : MaxInt a b = max a b := by
  unfold MaxInt
  split <;> omega

end etensor

namespace etensor

/-- C2 (as amended): on a row-major tensor whose storage holds `Len()` bits,
with `Dim(0) ≠ 0` and no overflow in the product of its dimension sizes, for
every `n` such that `Dim(0) + n` and `(Dim(0) + n) * (Len()/Dim(0))` are ints
(no overflow): `AddRows(n)` succeeds, increases `Dim(0)` by exactly `n` and
`Len()` by `n * (Len()/OldDim(0))`, and leaves `Value1D(j)` as it was for every
flat index `j` in `0..OldLen-1` that is below the new `Len()`; for
`Dim(0) ≥ 1` and `n ≥ 0` these are all of `0..OldLen-1`, and storage and shape
stay in step. -/
theorem Bits.addRows_grows (tsr : Bits) (n rows : Int) (hv : tsr.Valid)
    (hrm : tsr.IsRowMajor = true) (hd : tsr.Dim 0 = some rows) (hne : rows ≠ 0)
    (hfit : tsr.Fits) (hsum : inInt64 (rows + n))
    (hnew : inInt64 ((rows + n) * tsr.Len.tdiv rows)) :
    ∃ t, tsr.AddRows n = some t ∧
      t.Dim 0 = some (rows + n) ∧
      t.Len = tsr.Len + n * (tsr.Len.tdiv rows) ∧
      (∀ j : Int, 0 ≤ j → j < tsr.Len → j < t.Len → t.Value1D j = tsr.Value1D j) ∧
      (1 ≤ rows → 0 ≤ n →
        t.Valid ∧ ∀ j : Int, 0 ≤ j → j < tsr.Len → t.Value1D j = tsr.Value1D j) := by
  obtain ⟨rest, hs⟩ := Shape.shp_of_dim_zero tsr.toShape rows hd
  have hprod : inInt64 (rows * rest.prod) := by
    have := hfit.2; rw [hs, List.prod_cons] at this; exact this
  have hlen : tsr.Len = rows * rest.prod := by
    rw [Shape.len_of_fits _ hfit, hs, List.prod_cons]
  have htd : tsr.Len.tdiv rows = rest.prod := by
    rw [hlen]; exact Int.mul_tdiv_cancel_left _ hne
  rw [htd] at hnew ⊢
  have hnl : Shape.Len { Shp := wrap64 (rows + n) :: rest, Strd := tsr.Strd, Nms := tsr.Nms }
      = (rows + n) * rest.prod := by
    simp only [Shape.Len, List.prod_cons]
    rw [wrap64_of_inInt64 _ hsum, wrap64_of_inInt64 _ hnew]
  have hkeep : ∀ j : Int, 0 ≤ j → j < tsr.Len → j < (rows + n) * rest.prod →
      (tsr.Values.SetLen (wrap64 (wrap64 (rows + n) * rest.prod))).Index j
        = tsr.Values.Index j := by
    intro j _ hj hjn
    rw [wrap64_of_inInt64 _ hsum, wrap64_of_inInt64 _ hnew]
    exact bitslice.Slice.setLen_index_lt _ _ _ (by rw [hv]; exact hj) hjn
  refine ⟨_, Bits.addRows_eq tsr n rows rest hrm hs hne hprod, ?_, ?_, ?_, ?_⟩
  · simp [Shape.Dim, wrap64_of_inInt64 _ hsum]
  · show Shape.Len { Shp := wrap64 (rows + n) :: rest, Strd := tsr.Strd, Nms := tsr.Nms } = _
    rw [hnl, hlen]; ring
  · intro j h0 hj hjn
    exact hkeep j h0 hj (by rw [← hnl]; exact hjn)
  · intro hr hn
    have hp : 0 ≤ rest.prod := by
      have h0 : 0 ≤ rows * rest.prod := by
        rw [← hlen, ← hv]; exact tsr.Values.len_nonneg
      by_contra hneg
      have : rows * rest.prod < 0 := Int.mul_neg_of_pos_of_neg (by omega) (by omega)
      omega
    have hgrow : tsr.Len ≤ (rows + n) * rest.prod := by
      rw [hlen]
      have : 0 ≤ n * rest.prod := Int.mul_nonneg hn hp
      linarith
    constructor
    · show bitslice.Slice.Len _ = Shape.Len _
      rw [hnl, wrap64_of_inInt64 _ hsum, wrap64_of_inInt64 _ hnew]
      exact bitslice.Slice.setLen_len _ _ (by rw [hlen] at hgrow; nlinarith)
    · intro j h0 hj
      exact hkeep j h0 hj (lt_of_lt_of_le hj hgrow)

/-- C2 at dims `[2,3]` with bit 4 set: `AddRows(1)` gives `Dim(0) = 3`,
`Len() = 9`, and the six old values are unchanged. -/
theorem Bits.addRows_grows_witness :
    ∃ t, (Bits.mk ⟨[2, 3], [3, 1], ["", ""]⟩ ⟨[false, false, false, false, true, false]⟩).AddRows 1
        = some t ∧
      t.Dim 0 = some 3 ∧ t.Len = 9 ∧
      t.Value1D 4 = some true ∧ t.Value1D 5 = some false := by
  obtain ⟨t, h, hd, hl, -, hj⟩ := Bits.addRows_grows
    (Bits.mk ⟨[2, 3], [3, 1], ["", ""]⟩ ⟨[false, false, false, false, true, false]⟩) 1 2
    (by decide) (by decide) (by decide) (by decide) (by decide) (by decide) (by decide)
  refine ⟨t, h, hd, ?_, ?_, ?_⟩
  · rw [hl]; decide
  · rw [(hj (by decide) (by decide)).2 4 (by decide) (by decide)]; decide
  · rw [(hj (by decide) (by decide)).2 5 (by decide) (by decide)]; decide

/-- C2 as stated fails four times.  A row-major tensor of dims `[0,3]` has
`Dim(0) = 0`, and `AddRows(1)` divides by it.  On dims `[4,3]`, `AddRows(-3)`
leaves three bits, so the flat index 9, which held a value before, is out of
range afterwards.  On dims `[1,4]`, `AddRows(2^62-1)` computes the new length
`2^62 * 4`, which wraps to 0: `Len()` is 0 instead of `4 + (2^62-1)*4` and the
four old values are gone.  And on dims `[2^32, 2^32]`, whose `Len()` has
wrapped to 0, `AddRows(1)` computes the inner length 0 and `Len()` becomes
`2^32` instead of `0 + 1*0`. -/
theorem Bits.addRows_as_stated_fails :
    ((NewBits [0, 3] none none).IsRowMajor = true ∧
      (NewBits [0, 3] none none).Valid ∧
      (NewBits [0, 3] none none).AddRows 1 = none) ∧
    ((NewBits [4, 3] none none).IsRowMajor = true ∧
      (NewBits [4, 3] none none).Valid ∧
      (NewBits [4, 3] none none).Value1D 9 = some false ∧
      ∃ t, (NewBits [4, 3] none none).AddRows (-3) = some t ∧
        t.Dim 0 = some 1 ∧ t.Len = 3 ∧ t.Value1D 9 = none) ∧
    ((NewBits [1, 4] none none).IsRowMajor = true ∧
      (NewBits [1, 4] none none).Valid ∧
      (NewBits [1, 4] none none).Value1D 3 = some false ∧
      ∃ t, (NewBits [1, 4] none none).AddRows (2 ^ 62 - 1) = some t ∧
        t.Dim 0 = some (2 ^ 62) ∧ t.Len = 0 ∧ t.Value1D 3 = none) ∧
    ((NewBits [2 ^ 32, 2 ^ 32] none none).IsRowMajor = true ∧
      (NewBits [2 ^ 32, 2 ^ 32] none none).Valid ∧
      (NewBits [2 ^ 32, 2 ^ 32] none none).Len = 0 ∧
      ∃ t, (NewBits [2 ^ 32, 2 ^ 32] none none).AddRows 1 = some t ∧
        t.Dim 0 = some (2 ^ 32 + 1) ∧ t.Len = 2 ^ 32) := by
  refine ⟨⟨by decide, by decide, by decide⟩, ⟨by decide, by decide, by decide, ?_⟩,
    ⟨by decide, by decide, by decide, ?_⟩, by decide, by decide, by decide, ?_⟩
  · exact ⟨_, rfl, by decide, by decide, by decide⟩
  · exact ⟨_, rfl, by decide, by decide, by decide⟩
  · exact ⟨_, rfl, by decide, by decide⟩

/-- C3 (as amended): on a row-major tensor whose `Dim(0)` is not 0 and whose
product of dimension sizes has not overflowed, for every int `r` such that
`max(1, r) * innerLen` is an int (no overflow), `SetNumRows(r)` succeeds and
afterwards `Dim(0) = max(1, r)` and `Len() = max(1, r) * innerLen`, with
`innerLen` the pre-call `Len()` divided by the pre-call `Dim(0)`. -/
theorem Bits.setNumRows_clamps (tsr : Bits) (r crows : Int)
    (hrm : tsr.IsRowMajor = true) (hd : tsr.Dim 0 = some crows) (hc : crows ≠ 0)
    (hfit : tsr.Fits) (hr : inInt64 r)
    (hnew : inInt64 (max 1 r * tsr.Len.tdiv crows)) :
    ∃ t, tsr.SetNumRows r = some t ∧
      t.Dim 0 = some (max 1 r) ∧ inInt64 (max 1 r) ∧
      t.Len = max 1 r * tsr.Len.tdiv crows := by
  obtain ⟨rest, hs⟩ := Shape.shp_of_dim_zero tsr.toShape crows hd
  have hprod : inInt64 (crows * rest.prod) := by
    have := hfit.2; rw [hs, List.prod_cons] at this; exact this
  have hlen : tsr.Len = crows * rest.prod := by
    rw [Shape.len_of_fits _ hfit, hs, List.prod_cons]
  have htd : tsr.Len.tdiv crows = rest.prod := by
    rw [hlen]; exact Int.mul_tdiv_cancel_left _ hc
  rw [htd] at hnew ⊢
  have hmax := MaxInt_eq_max 1 r
  refine ⟨_, Bits.setNumRows_eq tsr r crows rest hrm hs hc hprod, ?_, ?_, ?_⟩
  · simp [Shape.Dim, hmax]
  · unfold inInt64 at hr ⊢
    omega
  · show Shape.Len { Shp := MaxInt 1 r :: rest, Strd := tsr.Strd, Nms := tsr.Nms } = _
    simp only [Shape.Len, List.prod_cons, hmax]
    exact wrap64_of_inInt64 _ hnew

/-- C3 at dims `[2,3]`: `SetNumRows(-4)` clamps to one row of three. -/
theorem Bits.setNumRows_clamps_witness :
    ∃ t, (NewBits [2, 3] none none).SetNumRows (-4) = some t ∧
      t.Dim 0 = some 1 ∧ t.Len = 3 := by
  obtain ⟨t, h, hd, -, hl⟩ := Bits.setNumRows_clamps (NewBits [2, 3] none none) (-4) 2
    (by decide) (by decide) (by decide) (by decide) (by decide) (by decide)
  exact ⟨t, h, hd, by rw [hl]; decide⟩

/-- C3 as stated fails three times.  On a row-major tensor of dims `[0,3]`,
`SetNumRows(5)` divides the length by `Dim(0) = 0`.  On dims `[1,4]`,
`SetNumRows(2^62)` computes the length `2^62 * 4`, which wraps: `Len()` is 0
afterwards, not `2^62 * 4`.  And on dims `[2^32, 2^32]`, whose `Len()` has
wrapped to 0, `SetNumRows(5)` computes `innerLen = 0`, yet `Len()` is
`5 * 2^32` afterwards, not `5 * 0`. -/
theorem Bits.setNumRows_as_stated_fails :
    ((NewBits [0, 3] none none).IsRowMajor = true ∧
      (NewBits [0, 3] none none).Dim 0 = some 0 ∧
      (NewBits [0, 3] none none).SetNumRows 5 = none) ∧
    ((NewBits [1, 4] none none).IsRowMajor = true ∧
      (NewBits [1, 4] none none).Len.tdiv 1 = 4 ∧
      ∃ t, (NewBits [1, 4] none none).SetNumRows (2 ^ 62) = some t ∧
        t.Dim 0 = some (2 ^ 62) ∧ t.Len = 0) ∧
    ((NewBits [2 ^ 32, 2 ^ 32] none none).IsRowMajor = true ∧
      (NewBits [2 ^ 32, 2 ^ 32] none none).Len.tdiv (2 ^ 32) = 0 ∧
      ∃ t, (NewBits [2 ^ 32, 2 ^ 32] none none).SetNumRows 5 = some t ∧
        t.Dim 0 = some 5 ∧ t.Len = 5 * 2 ^ 32) := by
  refine ⟨by decide, ⟨by decide, by decide, ?_⟩, by decide, by decide, ?_⟩
  · exact ⟨_, rfl, by decide, by decide⟩
  · exact ⟨_, rfl, by decide, by decide⟩

/-- C10: on a tensor whose layout is not row-major, `AddRows(n)` and
`SetNumRows(r)` return at once for every `n` and `r`: the call ends without a
fault and the tensor (dims, strides, names, every stored value) is as it was,
whatever `Dim(0)` is. -/
theorem Bits.growth_not_rowMajor_noop (tsr : Bits) (n r : Int)
    (hrm : tsr.IsRowMajor = false) :
    tsr.AddRows n = some tsr ∧ tsr.SetNumRows r = some tsr := by
  simp [Bits.AddRows, Bits.SetNumRows, hrm]

/-- C10 at dims `[0,3]` with column-major strides `[1,0]`: nothing happens,
although `Dim(0)` is 0. -/
theorem Bits.growth_not_rowMajor_noop_witness :
    (NewBits [0, 3] (some [1, 0]) none).Dim 0 = some 0 ∧
    (NewBits [0, 3] (some [1, 0]) none).AddRows 2 = some (NewBits [0, 3] (some [1, 0]) none) ∧
    (NewBits [0, 3] (some [1, 0]) none).SetNumRows 7
      = some (NewBits [0, 3] (some [1, 0]) none) :=
  ⟨by decide, Bits.growth_not_rowMajor_noop (NewBits [0, 3] (some [1, 0]) none) 2 7 (by decide)⟩

end etensor

/-! ## The string view -/

namespace etensor

/-- C5: whatever the boolean parser is, on a tensor whose storage holds `Len()`
bits and for a flat index `0 ≤ i < Len()`: when the parser rejects `s`,
`SetString1D(i, s)` (and `SetString(idx, s)` for any multi-index) ends without
a fault and leaves the tensor, hence `Value1D(j)` for every `j`, as it was;
when the parser accepts `s` as `b`, the call succeeds and `Value1D(i)` is `b`
afterwards. -/
theorem Bits.setString1D_parse (ToBool : String → Bool × Bool) (tsr : Bits) (i : Int)
    (s : String) (hv : tsr.Valid) (h0 : 0 ≤ i) (h1 : i < tsr.Len) :
    ((ToBool s).2 = false →
      tsr.SetString1D ToBool i s = some tsr ∧
      (∀ j, (tsr.SetString1D ToBool i s).bind (fun t => t.Value1D j) = tsr.Value1D j) ∧
      ∀ idx, tsr.SetString ToBool idx s = some tsr) ∧
    (∀ b, ToBool s = (b, true) →
      ∃ t, tsr.SetString1D ToBool i s = some t ∧ t.Value1D i = some b) := by
  constructor
  · intro hrej
    have hno : tsr.SetString1D ToBool i s = some tsr := by
      unfold Bits.SetString1D
      split
      · rename_i heq; rw [heq] at hrej; cases hrej
      · rfl
    refine ⟨hno, fun j => by rw [hno]; rfl, fun idx => ?_⟩
    unfold Bits.SetString
    split
    · rename_i heq; rw [heq] at hrej; cases hrej
    · rfl
  · intro b hacc
    have hs := bitslice.Slice.set_eq_some tsr.Values i b h0 (by rw [hv]; exact h1)
    refine ⟨{ tsr with Values := ⟨tsr.Values.bits.set i.toNat b⟩ }, ?_, ?_⟩
    · simp [Bits.SetString1D, hacc, hs]
    · exact bitslice.Slice.index_set_self _ _ _ _ hs

/-- C5 with Go's `strconv.ParseBool` on dims `[2,3]` with bit 4 set:
`"not-a-boolean"` changes nothing, `"false"` clears the bit. -/
theorem Bits.setString1D_parse_witness :
    (Bits.mk ⟨[2, 3], [3, 1], ["", ""]⟩ ⟨[false, false, false, false, true, false]⟩).SetString1D
        ParseBool 4 "not-a-boolean"
      = some (Bits.mk ⟨[2, 3], [3, 1], ["", ""]⟩ ⟨[false, false, false, false, true, false]⟩) ∧
    ∃ t, (Bits.mk ⟨[2, 3], [3, 1], ["", ""]⟩
        ⟨[false, false, false, false, true, false]⟩).SetString1D ParseBool 4 "false" = some t ∧
      t.Value1D 4 = some false := by
  have h := Bits.setString1D_parse ParseBool
    (Bits.mk ⟨[2, 3], [3, 1], ["", ""]⟩ ⟨[false, false, false, false, true, false]⟩) 4
  exact ⟨((h "not-a-boolean" (by decide) (by decide) (by decide)).1 (by decide)).1,
    (h "false" (by decide) (by decide) (by decide)).2 false (by decide)⟩

end etensor

/-! ## Whole-tensor traversal -/

namespace etensor

theorem index_natCast (bits : List Bool) (j : Nat) (b : Bool) (hj : bits[j]? = some b) :
    (bitslice.Slice.mk bits).Index (j : Int) = some b := by
  have hlt : j < bits.length := by
    by_contra h
    rw [List.getElem?_eq_none (by omega)] at hj
    cases hj
  simp [bitslice.Slice.Index, bitslice.Slice.Len, hlt, hj]

theorem set_natCast (bits : List Bool) (j : Nat) (v : Bool) (hj : j < bits.length) :
    (bitslice.Slice.mk bits).Set (j : Int) v = some ⟨bits.set j v⟩ := by
  simp [bitslice.Slice.Set, bitslice.Slice.Len, hj]

theorem set_at_boundary {α : Type} (pre r : List α) (n : Nat) (x : α)
    (hpre : pre.length = n) (hr : n < r.length) :
    (pre ++ r.drop n).set n x = pre ++ x :: r.drop (n + 1) := by
  rw [List.set_append_right n x (by omega), hpre, Nat.sub_self,
    List.drop_eq_getElem_cons hr]
  rfl

theorem get_at_boundary {α : Type} (pre r : List α) (n : Nat)
    (hpre : pre.length = n) (hr : n < r.length) :
    (pre ++ r.drop n)[n]? = some (r.get ⟨n, hr⟩) := by
  rw [List.getElem?_append_right (by omega), hpre, Nat.sub_self,
    List.drop_eq_getElem_cons hr]
  simp

theorem map_take_succ {α β : Type} (g : α → β) (l : List α) (n : Nat) (hn : n < l.length) :
    (l.take (n + 1)).map g = (l.take n).map g ++ [g (l.get ⟨n, hn⟩)] := by
  rw [List.take_succ, List.getElem?_eq_getElem hn, List.map_append]
  rfl

theorem length_map_take {α β : Type} (g : α → β) (l : List α) (n : Nat) (hn : n ≤ l.length) :
    ((l.take n).map g).length = n := by
  rw [List.length_map, List.length_take]
  omega

/-- The loop of `Floats1D` and `EvalFunc` after `n` rounds: the first `n`
entries are written, the others are as they were. -/
theorem evalLoop (bits : List Bool) (g : Float64 → Float64) (res0 : List Float64)
    (hl : res0.length = bits.length) (n : Nat) (hn : n ≤ bits.length) :
    (List.range n).foldlM (fun (res : List Float64) (j : Nat) =>
        (bitslice.Slice.mk bits).Index (j : Int) >>= fun b =>
          pure (res.set j (g (BoolToFloat64 b)))) res0
      = some ((bits.take n).map (fun b => g (BoolToFloat64 b)) ++ res0.drop n) := by
  induction n with
  | zero => simp
  | succ n ih =>
    have hn' : n < bits.length := by omega
    rw [List.range_succ, List.foldlM_append, ih (by omega)]
    simp only [Option.some_bind, Option.bind_eq_bind, List.foldlM_cons, List.foldlM_nil,
      index_natCast bits n _ (List.getElem?_eq_getElem hn'), Option.pure_def, Option.bind_some]
    rw [set_at_boundary _ _ n _ (length_map_take _ _ _ (by omega)) (by omega),
      map_take_succ _ _ _ hn', List.append_assoc]
    rfl

/-- The loop of `AggFunc` after `n` rounds. -/
theorem aggLoop (bits : List Bool) (fn : Float64 → Float64 → Float64) (ini : Float64)
    (n : Nat) (hn : n ≤ bits.length) :
    (List.range n).foldlM (fun (ag : Float64) (j : Nat) =>
        (bitslice.Slice.mk bits).Index (j : Int) >>= fun b =>
          pure (fn (BoolToFloat64 b) ag)) ini
      = some ((bits.take n).foldl (fun ag b => fn (BoolToFloat64 b) ag) ini) := by
  induction n with
  | zero => simp
  | succ n ih =>
    have hn' : n < bits.length := by omega
    rw [List.range_succ, List.foldlM_append, ih (by omega)]
    simp only [Option.some_bind, Option.bind_eq_bind, List.foldlM_cons, List.foldlM_nil,
      index_natCast bits n _ (List.getElem?_eq_getElem hn'), Option.pure_def, Option.bind_some]
    rw [List.take_succ, List.getElem?_eq_getElem hn', List.foldl_append]
    rfl

/-- The loop of `SetFunc` after `n` rounds: the first `n` bits are rewritten,
the others are still the old ones. -/
theorem setLoop (bits : List Bool) (g : Bool → Bool) (n : Nat) (hn : n ≤ bits.length) :
    (List.range n).foldlM (fun (vs : bitslice.Slice) (j : Nat) =>
        vs.Index (j : Int) >>= fun b => vs.Set (j : Int) (g b)) (bitslice.Slice.mk bits)
      = some ⟨(bits.take n).map g ++ bits.drop n⟩ := by
  induction n with
  | zero => simp
  | succ n ih =>
    have hn' : n < bits.length := by omega
    have hpre := length_map_take g bits n (by omega)
    have hlen : n < ((bits.take n).map g ++ bits.drop n).length := by
      rw [List.length_append, hpre, List.length_drop]; omega
    rw [List.range_succ, List.foldlM_append, ih (by omega)]
    simp only [Option.some_bind, Option.bind_eq_bind, List.foldlM_cons, List.foldlM_nil,
      index_natCast _ n _ (get_at_boundary _ bits n hpre hn'), set_natCast _ n _ hlen,
      Option.pure_def, Option.bind_some]
    rw [set_at_boundary _ _ n _ hpre hn', map_take_succ _ _ _ hn', List.append_assoc]
    rfl

theorem Bits.Valid.toNat_len {tsr : Bits} (hv : tsr.Valid) :
    tsr.Len.toNat = tsr.Values.bits.length ∧ 0 ≤ tsr.Len := by
  unfold Bits.Valid bitslice.Slice.Len at hv
  omega

end etensor

namespace etensor

theorem makeFloats_valid {tsr : Bits} (hv : tsr.Valid) :
    makeFloats tsr.Len = some (List.replicate tsr.Values.bits.length Float64.zero) := by
  obtain ⟨h1, h2⟩ := hv.toNat_len
  simp [makeFloats, h1, not_lt.mpr h2]

theorem evalLoop_full (bits : List Bool) (g : Float64 → Float64) (res0 : List Float64)
    (hl : res0.length = bits.length) :
    (List.range bits.length).foldlM (fun (res : List Float64) (j : Nat) =>
        (bitslice.Slice.mk bits).Index (j : Int) >>= fun b =>
          pure (res.set j (g (BoolToFloat64 b)))) res0
      = some (bits.map (fun b => g (BoolToFloat64 b))) := by
  rw [evalLoop bits g res0 hl bits.length le_rfl, List.take_length,
    List.drop_of_length_le (by omega), List.append_nil]

theorem Bits.floats1D_valid (tsr : Bits) (hv : tsr.Valid) :
    tsr.Floats1D = some (tsr.Values.bits.map BoolToFloat64) := by
  unfold Bits.Floats1D
  simp only [makeFloats_valid hv, hv.toNat_len.1, Option.some_bind, Option.bind_eq_bind]
  exact evalLoop_full tsr.Values.bits (fun x => x) _ (by simp)

theorem Bits.floatVal1D_nat (tsr : Bits) (j : Nat) :
    tsr.FloatVal1D (j : Int) = (tsr.Values.bits.map BoolToFloat64)[j]? := by
  unfold Bits.FloatVal1D bitslice.Slice.Index bitslice.Slice.Len
  by_cases hj : j < tsr.Values.bits.length
  · simp [hj, List.getElem?_eq_getElem hj]
  · simp [hj, List.getElem?_eq_none (not_lt.mp hj)]

/-- C6: on a tensor whose storage holds `Len()` bits, `Floats1D()` is the list
of length `Len()` whose entry `j` is the float view of the bit at flat index
`j`, that is `1.0` when `Value1D(j)` is true and `0.0` when it is false (and
`FloatVal1D(j)` is that number), and for every combine function `fn` and
initial value `a`, `AggFunc(fn, a)` returns the left fold over that list in
ascending order, each step being `ag := fn(floatView(j), ag)`. -/
theorem Bits.aggFunc_is_foldl (tsr : Bits) (fn : Float64 → Float64 → Float64) (a : Float64)
    (hv : tsr.Valid) :
    ∃ fl, tsr.Floats1D = some fl ∧
      (fl.length : Int) = tsr.Len ∧
      (∀ j : Nat, (j : Int) < tsr.Len →
        ∃ b, tsr.Value1D (j : Int) = some b ∧
          fl[j]? = some (if b then Float64.one else Float64.zero) ∧
          tsr.FloatVal1D (j : Int) = some (if b then Float64.one else Float64.zero)) ∧
      tsr.AggFunc fn a = some (fl.foldl (fun ag v => fn v ag) a) := by
  have hview : ∀ b : Bool, BoolToFloat64 b = if b then Float64.one else Float64.zero := by
    intro b; cases b <;> rfl
  refine ⟨_, Bits.floats1D_valid tsr hv, ?_, ?_, ?_⟩
  · rw [List.length_map]; exact hv
  · intro j hj
    have hlt : j < tsr.Values.bits.length := by
      have := hv.toNat_len; omega
    refine ⟨tsr.Values.bits.get ⟨j, hlt⟩, ?_, ?_, ?_⟩
    · exact index_natCast tsr.Values.bits j _ (by simp [List.getElem?_eq_getElem hlt])
    · rw [← hview]; simp [List.getElem?_eq_getElem hlt]
    · rw [← hview, Bits.floatVal1D_nat]; simp [List.getElem?_eq_getElem hlt]
  · unfold Bits.AggFunc
    simp only [hv.toNat_len.1]
    have h := aggLoop tsr.Values.bits fn a tsr.Values.bits.length le_rfl
    rw [List.take_length] at h
    rw [List.foldl_map]
    exact h

/-- C6 at dims `[2,3]` with bit 4 set: the float views are
`[0, 0, 0, 0, 1, 0]`, and with the combine function `ag := 2*ag + v`, whose
result depends on the order of the fold, `AggFunc` from 0 returns 2: the 1 at
flat index 4 is doubled once, by the step at flat index 5. -/
theorem Bits.aggFunc_is_foldl_witness :
    (Bits.mk ⟨[2, 3], [3, 1], ["", ""]⟩
        ⟨[false, false, false, false, true, false]⟩).Floats1D
      = some [Float64.zero, Float64.zero, Float64.zero, Float64.zero, Float64.one,
          Float64.zero] ∧
    (Bits.mk ⟨[2, 3], [3, 1], ["", ""]⟩ ⟨[false, false, false, false, true, false]⟩).AggFunc
        (fun v ag => (ag.add ag).add v) Float64.zero
      = some (Float64.finite false 2 0) := by
  obtain ⟨fl, h1, -, hj, h2⟩ := Bits.aggFunc_is_foldl
    (Bits.mk ⟨[2, 3], [3, 1], ["", ""]⟩ ⟨[false, false, false, false, true, false]⟩)
    (fun v ag => (ag.add ag).add v) Float64.zero (by decide)
  have hfl : fl = [Float64.zero, Float64.zero, Float64.zero, Float64.zero, Float64.one,
      Float64.zero] := by
    have h : (Bits.mk ⟨[2, 3], [3, 1], ["", ""]⟩
        ⟨[false, false, false, false, true, false]⟩).Floats1D
      = some [Float64.zero, Float64.zero, Float64.zero, Float64.zero, Float64.one,
          Float64.zero] := by decide
    rw [h] at h1; cases h1; rfl
  subst hfl
  exact ⟨h1, by rw [h2]; decide⟩

/-- C7: on a tensor whose storage holds `Len()` bits, for every transform `fn`
and every buffer, whatever its length and contents, `EvalFunc(fn, buf)`
succeeds; afterwards the buffer has length exactly `Len()`, its entry `j` is
`fn(floatView(j))` for every flat index `j` in `0..Len()-1`, where
`floatView(j)` is `1.0` when `Value1D(j)` is true and `0.0` when it is false
(the number that `FloatVal1D(j)` returns), and the tensor is as it was. -/
theorem Bits.evalFunc_fills (tsr : Bits) (fn : Float64 → Float64) (buf : List Float64)
    (hv : tsr.Valid) :
    ∃ out, tsr.EvalFunc fn buf = some (tsr, out) ∧
      (out.length : Int) = tsr.Len ∧
      ∀ j : Nat, (j : Int) < tsr.Len →
        ∃ b, tsr.Value1D (j : Int) = some b ∧
          tsr.FloatVal1D (j : Int) = some (if b then Float64.one else Float64.zero) ∧
          out[j]? = some (fn (if b then Float64.one else Float64.zero)) := by
  have hview : ∀ b : Bool, BoolToFloat64 b = if b then Float64.one else Float64.zero := by
    intro b; cases b <;> rfl
  have hout : tsr.EvalFunc fn buf
      = some (tsr, tsr.Values.bits.map (fun b => fn (BoolToFloat64 b))) := by
    unfold Bits.EvalFunc
    by_cases hb : (buf.length : Int) = tsr.Len
    · have hl : buf.length = tsr.Values.bits.length := by
        have := hv.toNat_len; omega
      simp only [hb, ne_eq, not_true_eq_false, if_false, hv.toNat_len.1, Option.some_bind,
        Option.bind_eq_bind]
      have h := evalLoop_full tsr.Values.bits fn buf hl
      simp only [Option.bind_eq_bind] at h
      rw [h]; rfl
    · simp only [ne_eq, hb, not_false_eq_true, if_true, makeFloats_valid hv, hv.toNat_len.1,
        Option.some_bind, Option.bind_eq_bind]
      have h := evalLoop_full tsr.Values.bits fn
        (List.replicate tsr.Values.bits.length Float64.zero) (by simp)
      simp only [Option.bind_eq_bind] at h
      rw [h]; rfl
  refine ⟨_, hout, ?_, ?_⟩
  · rw [List.length_map]; exact hv
  · intro j hj
    have hlt : j < tsr.Values.bits.length := by
      have := hv.toNat_len; omega
    refine ⟨tsr.Values.bits.get ⟨j, hlt⟩, ?_, ?_, ?_⟩
    · exact index_natCast tsr.Values.bits j _ (by simp [List.getElem?_eq_getElem hlt])
    · rw [← hview, Bits.floatVal1D_nat]; simp [List.getElem?_eq_getElem hlt]
    · rw [← hview]; simp [List.getElem?_eq_getElem hlt]

/-- C7 at dims `[2,3]` with bit 4 set, a buffer of the wrong length and the
transform that swaps 0 and 1: the buffer becomes `[1, 1, 1, 1, 0, 1]`. -/
theorem Bits.evalFunc_fills_witness :
    (Bits.mk ⟨[2, 3], [3, 1], ["", ""]⟩
        ⟨[false, false, false, false, true, false]⟩).EvalFunc
          (fun v => if v.eqZero then Float64.one else Float64.zero) [Float64.nan]
      = some (Bits.mk ⟨[2, 3], [3, 1], ["", ""]⟩ ⟨[false, false, false, false, true, false]⟩,
          [Float64.one, Float64.one, Float64.one, Float64.one, Float64.zero, Float64.one]) := by
  obtain ⟨out, h1, h2, hj⟩ := Bits.evalFunc_fills
    (Bits.mk ⟨[2, 3], [3, 1], ["", ""]⟩ ⟨[false, false, false, false, true, false]⟩)
    (fun v => if v.eqZero then Float64.one else Float64.zero) [Float64.nan] (by decide)
  have hb : ∀ (j : Nat) (c : Bool), (j : Int) < 6 →
      (Bits.mk ⟨[2, 3], [3, 1], ["", ""]⟩
        ⟨[false, false, false, false, true, false]⟩).Value1D (j : Int) = some c →
      out[j]? = some (if (if c then Float64.one else Float64.zero).eqZero
        then Float64.one else Float64.zero) := by
    intro j c hlt hc
    obtain ⟨b, hb1, -, hb3⟩ := hj j hlt
    rw [hc] at hb1; cases hb1
    exact hb3
  have e0 := hb 0 false (by decide) (by decide)
  have e1 := hb 1 false (by decide) (by decide)
  have e2 := hb 2 false (by decide) (by decide)
  have e3 := hb 3 false (by decide) (by decide)
  have e4 := hb 4 true (by decide) (by decide)
  have e5 := hb 5 false (by decide) (by decide)
  have hlen : out.length = 6 := by
    have : (out.length : Int) = 6 := by rw [h2]; decide
    omega
  have hout : out = [Float64.one, Float64.one, Float64.one, Float64.one, Float64.zero,
      Float64.one] := by
    apply List.ext_getElem?
    intro n
    match n with
    | 0 => rw [e0]; rfl
    | 1 => rw [e1]; rfl
    | 2 => rw [e2]; rfl
    | 3 => rw [e3]; rfl
    | 4 => rw [e4]; rfl
    | 5 => rw [e5]; rfl
    | k + 6 =>
      rw [List.getElem?_eq_none (by omega)]
      rfl
  rw [h1, hout]

theorem Bits.setFunc_valid (tsr : Bits) (fn : Float64 → Float64) (hv : tsr.Valid) :
    tsr.SetFunc fn = some { tsr with Values :=
      ⟨tsr.Values.bits.map (fun b => Float64ToBool (fn (BoolToFloat64 b)))⟩ } := by
  unfold Bits.SetFunc
  have h := setLoop tsr.Values.bits (fun b => Float64ToBool (fn (BoolToFloat64 b)))
    tsr.Values.bits.length le_rfl
  rw [List.take_length, List.drop_length, List.append_nil] at h
  simp only [Option.bind_eq_bind] at h
  simp only [hv.toNat_len.1, Option.bind_eq_bind]
  rw [h]; rfl

/-- C8: on a tensor whose storage holds `Len()` bits, for every transform `fn`,
`SetFunc(fn)` succeeds; afterwards the value at every flat index `j` in
`0..Len()-1` is `fn(floatView_before(j)) != 0`, where `floatView_before(j)` is
`1.0` when `Value1D(j)` was true before the call and `0.0` when it was false
(the number that `FloatVal1D(j)` returned), and the shape, `Len()` and the
length of the storage are as before. -/
theorem Bits.setFunc_coerces (tsr : Bits) (fn : Float64 → Float64) (hv : tsr.Valid) :
    ∃ t, tsr.SetFunc fn = some t ∧
      t.toShape = tsr.toShape ∧ t.Len = tsr.Len ∧ t.Values.Len = tsr.Values.Len ∧
      ∀ j : Nat, (j : Int) < tsr.Len →
        ∃ b, tsr.Value1D (j : Int) = some b ∧
          tsr.FloatVal1D (j : Int) = some (if b then Float64.one else Float64.zero) ∧
          t.Value1D (j : Int)
            = some (!(fn (if b then Float64.one else Float64.zero)).eqZero) := by
  have hview : ∀ b : Bool, BoolToFloat64 b = if b then Float64.one else Float64.zero := by
    intro b; cases b <;> rfl
  have hcoerce : ∀ v : Float64, Float64ToBool v = !v.eqZero := by
    intro v
    simp only [Float64ToBool]
    cases v.eqZero <;> rfl
  refine ⟨_, Bits.setFunc_valid tsr fn hv, rfl, rfl, by simp [bitslice.Slice.Len], ?_⟩
  intro j hj
  have hlt : j < tsr.Values.bits.length := by
    have := hv.toNat_len; omega
  refine ⟨tsr.Values.bits.get ⟨j, hlt⟩, ?_, ?_, ?_⟩
  · exact index_natCast tsr.Values.bits j _ (by simp [List.getElem?_eq_getElem hlt])
  · rw [← hview, Bits.floatVal1D_nat]; simp [List.getElem?_eq_getElem hlt]
  · simp only [Bits.Value1D]
    rw [← hview, ← hcoerce]
    exact index_natCast _ j _ (by simp [List.getElem?_eq_getElem hlt])

/-- C8 at dims `[2,3]` with bit 4 set and the transform that sends 0 to `-12`
and everything else to 0: bit 4 is cleared and bit 0 is set. -/
theorem Bits.setFunc_coerces_witness :
    ∃ t, (Bits.mk ⟨[2, 3], [3, 1], ["", ""]⟩
        ⟨[false, false, false, false, true, false]⟩).SetFunc
          (fun v => if v.eqZero then Float64.finite true 3 2 else Float64.zero) = some t ∧
      t.Value1D 4 = some false ∧ t.Value1D 0 = some true := by
  obtain ⟨t, h, -, -, -, hj⟩ := Bits.setFunc_coerces
    (Bits.mk ⟨[2, 3], [3, 1], ["", ""]⟩ ⟨[false, false, false, false, true, false]⟩)
    (fun v => if v.eqZero then Float64.finite true 3 2 else Float64.zero) (by decide)
  refine ⟨t, h, ?_, ?_⟩
  · obtain ⟨b, hb, -, ht⟩ := hj 4 (by decide)
    have h4 : (Bits.mk ⟨[2, 3], [3, 1], ["", ""]⟩
        ⟨[false, false, false, false, true, false]⟩).Value1D ((4 : Nat) : Int)
          = some true := by decide
    rw [h4] at hb; cases hb
    exact ht
  · obtain ⟨b, hb, -, ht⟩ := hj 0 (by decide)
    have h0 : (Bits.mk ⟨[2, 3], [3, 1], ["", ""]⟩
        ⟨[false, false, false, false, true, false]⟩).Value1D ((0 : Nat) : Int)
          = some false := by decide
    rw [h0] at hb; cases hb
    exact ht

theorem setZeros_step (vs : bitslice.Slice) (j : Nat) :
    vs.Set (j : Int) false
      = vs.Index (j : Int) >>= fun b =>
          vs.Set (j : Int) (Float64ToBool ((fun _ => Float64.zero) (BoolToFloat64 b))) := by
  by_cases hj : j < vs.bits.length
  · rw [index_natCast vs.bits j _ (List.getElem?_eq_getElem hj)]
    rfl
  · simp [bitslice.Slice.Set, bitslice.Slice.Index, bitslice.Slice.Len, hj]

/-- The source of `SetZeros` and `SetFunc` with the constant-zero transform
run the same loop, on every tensor state. -/
theorem Bits.setZeros_eq_setFunc (tsr : Bits) :
    tsr.SetZeros = tsr.SetFunc (fun _ => Float64.zero) := by
  unfold Bits.SetZeros Bits.SetFunc
  have hstep : (fun (vs : bitslice.Slice) (j : Nat) => vs.Set (j : Int) false)
      = (fun (vs : bitslice.Slice) (j : Nat) => vs.Index (j : Int) >>= fun b =>
          vs.Set (j : Int) (Float64ToBool ((fun _ => Float64.zero) (BoolToFloat64 b)))) := by
    funext vs j
    exact setZeros_step vs j
  simp only [hstep]

/-- C9: `SetZeros()` gives the same result as `SetFunc` with the transform that
is constantly `0.0` (on every tensor state), and on a tensor whose storage
holds `Len()` bits it succeeds, leaves the shape as it was and makes every
element at flat indices `0..Len()-1` false. -/
theorem Bits.setZeros_refines_setFunc (tsr : Bits) (hv : tsr.Valid) :
    tsr.SetZeros = tsr.SetFunc (fun _ => Float64.zero) ∧
    ∃ t, tsr.SetZeros = some t ∧
      t.toShape = tsr.toShape ∧ t.Values.Len = tsr.Values.Len ∧
      ∀ j : Nat, (j : Int) < tsr.Len → t.Value1D (j : Int) = some false := by
  refine ⟨Bits.setZeros_eq_setFunc tsr, ?_⟩
  have h := Bits.setFunc_valid tsr (fun _ => Float64.zero) hv
  refine ⟨{ tsr with Values := ⟨tsr.Values.bits.map
      (fun b => Float64ToBool ((fun _ => Float64.zero) (BoolToFloat64 b)))⟩ },
    by rw [Bits.setZeros_eq_setFunc, h], rfl, by simp [bitslice.Slice.Len], ?_⟩
  intro j hlt
  have hlt' : j < tsr.Values.bits.length := by
    have := hv.toNat_len; omega
  simp only [Bits.Value1D]
  refine index_natCast _ j false ?_
  rw [List.getElem?_map, List.getElem?_eq_getElem hlt']
  rfl

/-- C9 at dims `[2,3]` with bit 4 set: both calls give the all-false tensor. -/
theorem Bits.setZeros_refines_setFunc_witness :
    (Bits.mk ⟨[2, 3], [3, 1], ["", ""]⟩ ⟨[false, false, false, false, true, false]⟩).SetZeros
      = (Bits.mk ⟨[2, 3], [3, 1], ["", ""]⟩
          ⟨[false, false, false, false, true, false]⟩).SetFunc (fun _ => Float64.zero) ∧
    (Bits.mk ⟨[2, 3], [3, 1], ["", ""]⟩ ⟨[false, false, false, false, true, false]⟩).SetZeros
      = some (NewBits [2, 3] none none) :=
  ⟨(Bits.setZeros_refines_setFunc
      (Bits.mk ⟨[2, 3], [3, 1], ["", ""]⟩ ⟨[false, false, false, false, true, false]⟩)
      (by decide)).1, by decide⟩

end etensor

/-! ## Clone -/

namespace etensor

/-- No setter touches the shape: what a setter changes of a tensor is the
contents of `Values`. -/
theorem Setter.run_toShape (op : Setter) (tsr t : Bits) (h : op.run tsr = some t) :
    t.toShape = tsr.toShape := by
  cases op with
  | Set i val =>
    simp only [Setter.run, Bits.Set, Option.bind_eq_bind, Option.bind_eq_some] at h
    obtain ⟨_, _, _, _, h⟩ := h
    cases h; rfl
  | SetFloat i val =>
    simp only [Setter.run, Bits.SetFloat, Option.bind_eq_bind, Option.bind_eq_some] at h
    obtain ⟨_, _, _, _, h⟩ := h
    cases h; rfl
  | SetString ToBool i val =>
    simp only [Setter.run, Bits.SetString] at h
    split at h
    · simp only [Option.bind_eq_bind, Option.bind_eq_some] at h
      obtain ⟨_, _, _, _, h⟩ := h
      cases h; rfl
    · cases h; rfl
  | SetFloat1D off val =>
    simp only [Setter.run, Bits.SetFloat1D, Option.bind_eq_bind, Option.bind_eq_some] at h
    obtain ⟨_, _, h⟩ := h
    cases h; rfl
  | SetString1D ToBool off val =>
    simp only [Setter.run, Bits.SetString1D] at h
    split at h
    · simp only [Option.bind_eq_bind, Option.bind_eq_some] at h
      obtain ⟨_, _, h⟩ := h
      cases h; rfl
    · cases h; rfl
  | SetFunc fn =>
    simp only [Setter.run, Bits.SetFunc, Option.bind_eq_bind, Option.bind_eq_some] at h
    obtain ⟨_, _, h⟩ := h
    cases h; rfl
  | SetZeros =>
    simp only [Setter.run, Bits.SetZeros, Option.bind_eq_bind, Option.bind_eq_some] at h
    obtain ⟨_, _, h⟩ := h
    cases h; rfl

/-- A setter called on a tensor in memory writes no buffer but the tensor's
own. -/
theorem Heap.apply_frame (h h2 : Heap) (op : Setter) (r : BitsRef) (a : Nat)
    (hap : h.apply op r = some h2) (ha : a ≠ r.Values) : h2[a]? = h[a]? := by
  unfold Heap.apply at hap
  cases hr : h.read r with
  | none => simp [hr] at hap
  | some tsr =>
    cases ho : op.run tsr with
    | none => simp [hr, ho] at hap
    | some t =>
      simp [hr, ho] at hap
      rw [← hap]
      exact List.getElem?_set_ne (Ne.symm ha)

/-- The value read through a reference depends on the memory only at the
reference's address. -/
theorem Heap.value1D_congr (h h2 : Heap) (r : BitsRef) (hsame : h2[r.Values]? = h[r.Values]?)
    (j : Int) : h2.Value1D r j = h.Value1D r j := by
  simp [Heap.Value1D, Heap.read, hsame]

/-- The memory and the reference that `Clone` gives. -/
theorem Heap.clone_eq (h : Heap) (src : BitsRef) (b : bitslice.Slice)
    (hb : h[src.Values]? = some b) :
    h.Clone src = some (h ++ [bitslice.Make src.Len 0] ++ [b.Clone],
      { toShape := src.toShape, Values := h.length + 1 }) := by
  simp [Heap.Clone, hb, Heap.NewBitsShape, Heap.alloc, etensor.NewBitsShape,
    Shape.CopyShape, Bits.empty, Shape.Len]

/-- C4: for a tensor in memory, `Clone()` succeeds and returns a tensor with
the same shape and the same value at every flat index as the source, without
changing the source; and the two are independent: whichever setter (`Set`,
`SetFloat`, `SetString`, `SetFloat1D`, `SetString1D`, `SetFunc`, `SetZeros`,
with any arguments) is then called on the clone, `Value1D(j)` of the source is
as before for every `j`, and whichever setter is called on the source,
`Value1D(j)` of the clone is as before. -/
theorem Heap.clone_independent (h : Heap) (src : BitsRef) (hs : src.Values < h.length) :
    ∃ h1 cl, h.Clone src = some (h1, cl) ∧
      cl.toShape = src.toShape ∧
      (∀ j, h1.Value1D cl j = h.Value1D src j) ∧
      (∀ j, h1.Value1D src j = h.Value1D src j) ∧
      ∀ (op : Setter) (h2 : Heap),
        (h1.apply op cl = some h2 → ∀ j, h2.Value1D src j = h1.Value1D src j) ∧
        (h1.apply op src = some h2 → ∀ j, h2.Value1D cl j = h1.Value1D cl j) := by
  have hb : h[src.Values]? = some (h.get ⟨src.Values, hs⟩) := List.getElem?_eq_getElem hs
  have hcl : (h ++ [bitslice.Make src.Len 0] ++ [(h.get ⟨src.Values, hs⟩).Clone])[h.length + 1]?
      = some (h.get ⟨src.Values, hs⟩) := by
    rw [List.getElem?_append_right (by simp)]
    simp [bitslice.Slice.Clone]
  have hsrc : (h ++ [bitslice.Make src.Len 0] ++ [(h.get ⟨src.Values, hs⟩).Clone])[src.Values]?
      = h[src.Values]? := by
    rw [List.append_assoc, List.getElem?_append_left hs]
  refine ⟨_, _, Heap.clone_eq h src _ hb, rfl, ?_, ?_, ?_⟩
  · intro j
    simp only [Heap.Value1D, Heap.read, hcl, hb]
  · intro j
    exact Heap.value1D_congr _ _ src hsrc j
  · intro op h2
    constructor
    · intro hap j
      refine Heap.value1D_congr _ _ src ?_ j
      exact Heap.apply_frame _ _ op _ src.Values hap (by simp; omega)
    · intro hap j
      refine Heap.value1D_congr _ _ _ ?_ j
      exact Heap.apply_frame _ _ op _ (h.length + 1) hap (by omega)

/-- C4 on a memory that holds one tensor of dims `[2,3]` with bit 4 set: after
`Clone()`, `SetZeros()` on the clone clears bit 4 of the clone and the source
still reads `true` there. -/
theorem Heap.clone_independent_witness :
    ∃ h1 cl h2, Heap.Clone [⟨[false, false, false, false, true, false]⟩]
        ⟨⟨[2, 3], [3, 1], ["", ""]⟩, 0⟩ = some (h1, cl) ∧
      h1.Value1D cl 4 = some true ∧
      h1.apply Setter.SetZeros cl = some h2 ∧
      h2.Value1D cl 4 = some false ∧
      h2.Value1D ⟨⟨[2, 3], [3, 1], ["", ""]⟩, 0⟩ 4 = some true := by
  obtain ⟨h1, cl, hc, -, hv, hsv, hind⟩ := Heap.clone_independent
    [⟨[false, false, false, false, true, false]⟩] ⟨⟨[2, 3], [3, 1], ["", ""]⟩, 0⟩ (by decide)
  have hc' : Heap.Clone [⟨[false, false, false, false, true, false]⟩]
      ⟨⟨[2, 3], [3, 1], ["", ""]⟩, 0⟩
      = some ([⟨[false, false, false, false, true, false]⟩,
          ⟨[false, false, false, false, false, false]⟩,
          ⟨[false, false, false, false, true, false]⟩], ⟨⟨[2, 3], [3, 1], ["", ""]⟩, 2⟩) := by
    decide
  rw [hc'] at hc
  cases hc
  have hz : Heap.apply [⟨[false, false, false, false, true, false]⟩,
          ⟨[false, false, false, false, false, false]⟩,
          ⟨[false, false, false, false, true, false]⟩] Setter.SetZeros
          ⟨⟨[2, 3], [3, 1], ["", ""]⟩, 2⟩
      = some [⟨[false, false, false, false, true, false]⟩,
          ⟨[false, false, false, false, false, false]⟩,
          ⟨[false, false, false, false, false, false]⟩] := by
    decide
  refine ⟨_, _, _, rfl, by decide, hz, by decide, ?_⟩
  rw [(hind Setter.SetZeros _).1 hz 4]
  decide

end etensor

/-! ## The length invariant -/

namespace etensor

theorem foldlM_set_len (l : List Nat) (f : bitslice.Slice → Nat → Option bitslice.Slice)
    (hstep : ∀ vs j vs', f vs j = some vs' → vs'.Len = vs.Len) :
    ∀ vs vs', l.foldlM f vs = some vs' → vs'.Len = vs.Len := by
  induction l with
  | nil =>
    intro vs vs' h
    simp at h
    rw [h]
  | cons j l ih =>
    intro vs vs' h
    rw [List.foldlM_cons] at h
    cases hf : f vs j with
    | none => simp [hf] at h
    | some w =>
      simp [hf] at h
      rw [ih w vs' h, hstep vs j w hf]

/-- No setter changes the length of the storage. -/
theorem Setter.run_len (op : Setter) (tsr t : Bits) (h : op.run tsr = some t) :
    t.Values.Len = tsr.Values.Len := by
  cases op with
  | Set i val =>
    simp only [Setter.run, Bits.Set, Option.bind_eq_bind, Option.bind_eq_some] at h
    obtain ⟨_, _, vs, hs, h⟩ := h
    cases h; exact bitslice.Slice.set_len _ _ _ _ hs
  | SetFloat i val =>
    simp only [Setter.run, Bits.SetFloat, Option.bind_eq_bind, Option.bind_eq_some] at h
    obtain ⟨_, _, vs, hs, h⟩ := h
    cases h; exact bitslice.Slice.set_len _ _ _ _ hs
  | SetString ToBool i val =>
    simp only [Setter.run, Bits.SetString] at h
    split at h
    · simp only [Option.bind_eq_bind, Option.bind_eq_some] at h
      obtain ⟨_, _, vs, hs, h⟩ := h
      cases h; exact bitslice.Slice.set_len _ _ _ _ hs
    · cases h; rfl
  | SetFloat1D off val =>
    simp only [Setter.run, Bits.SetFloat1D, Option.bind_eq_bind, Option.bind_eq_some] at h
    obtain ⟨vs, hs, h⟩ := h
    cases h; exact bitslice.Slice.set_len _ _ _ _ hs
  | SetString1D ToBool off val =>
    simp only [Setter.run, Bits.SetString1D] at h
    split at h
    · simp only [Option.bind_eq_bind, Option.bind_eq_some] at h
      obtain ⟨vs, hs, h⟩ := h
      cases h; exact bitslice.Slice.set_len _ _ _ _ hs
    · cases h; rfl
  | SetFunc fn =>
    simp only [Setter.run, Bits.SetFunc, Option.bind_eq_bind, Option.bind_eq_some] at h
    obtain ⟨vs, hs, h⟩ := h
    cases h
    refine foldlM_set_len _ _ ?_ _ _ hs
    intro vs j vs' hf
    simp only [Option.bind_eq_some] at hf
    obtain ⟨_, _, hf⟩ := hf
    exact bitslice.Slice.set_len _ _ _ _ hf
  | SetZeros =>
    simp only [Setter.run, Bits.SetZeros, Option.bind_eq_bind, Option.bind_eq_some] at h
    obtain ⟨vs, hs, h⟩ := h
    cases h
    exact foldlM_set_len _ _ (fun vs j vs' hf => bitslice.Slice.set_len _ _ _ _ hf) _ _ hs

theorem LenInv.make (sh : Shape) : LenInv { toShape := sh, Values := bitslice.Make sh.Len 0 } := by
  intro h
  have h' : 0 ≤ sh.Len := h
  show ((List.replicate sh.Len.toNat false).length : Int) = sh.Len
  rw [List.length_replicate]
  omega

theorem LenInv.setLen (sh : Shape) (vs : bitslice.Slice) :
    LenInv { toShape := sh, Values := vs.SetLen sh.Len } := by
  intro h
  exact bitslice.Slice.setLen_len vs _ h

theorem LenInv.newBits (shape : List Int) (strides : Option (List Int))
    (names : Option (List String)) : LenInv (NewBits shape strides names) :=
  LenInv.make _

theorem LenInv.newBitsShape (sh : Shape) : LenInv (NewBitsShape sh) :=
  LenInv.make _

theorem LenInv.growth (tsr : Bits) (x : Int) (rest : List Int) :
    LenInv { tsr with
      Shp := x :: rest,
      Values := tsr.Values.SetLen (wrap64 (x * rest.prod)) } := by
  intro h
  have hl : Shape.Len { Shp := x :: rest, Strd := tsr.Strd, Nms := tsr.Nms }
      = wrap64 (x * rest.prod) := by simp [Shape.Len]
  simp only [Bits.Valid]
  rw [hl] at h ⊢
  exact bitslice.Slice.setLen_len _ _ h

theorem LenInv.addRows (tsr t : Bits) (n : Int) (hi : LenInv tsr) (hfit : tsr.Fits)
    (h : tsr.AddRows n = some t) : LenInv t := by
  by_cases hrm : tsr.IsRowMajor = true
  · have h' := h
    unfold Bits.AddRows at h'
    simp only [hrm, Bool.not_true, Bool.false_eq_true, if_false, Option.bind_eq_bind,
      Option.bind_eq_some] at h'
    obtain ⟨rows, hd, inln, hdiv, -⟩ := h'
    obtain ⟨rest, hs⟩ := Shape.shp_of_dim_zero tsr.toShape rows hd
    have hne : rows ≠ 0 := by
      intro h0; simp [goDiv, h0] at hdiv
    have hprod : inInt64 (rows * rest.prod) := by
      have := hfit.2; rw [hs, List.prod_cons] at this; exact this
    rw [Bits.addRows_eq tsr n rows rest hrm hs hne hprod] at h
    cases h
    exact LenInv.growth tsr (wrap64 (rows + n)) rest
  · unfold Bits.AddRows at h
    simp only [hrm, Bool.not_false, if_true] at h
    cases h; exact hi

theorem LenInv.setNumRows (tsr t : Bits) (r : Int) (hi : LenInv tsr) (hfit : tsr.Fits)
    (h : tsr.SetNumRows r = some t) : LenInv t := by
  by_cases hrm : tsr.IsRowMajor = true
  · have h' := h
    unfold Bits.SetNumRows at h'
    simp only [hrm, Bool.not_true, Bool.false_eq_true, if_false, Option.bind_eq_bind,
      Option.bind_eq_some] at h'
    obtain ⟨rows, hd, inln, hdiv, -⟩ := h'
    obtain ⟨rest, hs⟩ := Shape.shp_of_dim_zero tsr.toShape rows hd
    have hne : rows ≠ 0 := by
      intro h0; simp [goDiv, h0] at hdiv
    have hprod : inInt64 (rows * rest.prod) := by
      have := hfit.2; rw [hs, List.prod_cons] at this; exact this
    rw [Bits.setNumRows_eq tsr r rows rest hrm hs hne hprod] at h
    cases h
    exact LenInv.growth tsr (MaxInt 1 r) rest
  · unfold Bits.SetNumRows at h
    simp only [hrm, Bool.not_false, if_true] at h
    cases h; exact hi

theorem LenInv.step (op : Op) (tsr t : Bits) (hi : LenInv tsr)
    (hfit : op.grows = true → tsr.Fits) (h : op.run tsr = some t) :
    LenInv t := by
  cases op with
  | SetShape shape strides names =>
    simp only [Op.run, Option.some.injEq] at h
    rw [← h]
    exact LenInv.setLen _ _
  | AddRows n => exact LenInv.addRows tsr t n hi (hfit rfl) h
  | SetNumRows r => exact LenInv.setNumRows tsr t r hi (hfit rfl) h
  | Clone =>
    simp only [Op.run, Option.some.injEq] at h
    rw [← h]
    exact hi
  | setter s =>
    have h1 := Setter.run_toShape s tsr t h
    have h2 := Setter.run_len s tsr t h
    intro h0
    have h3 : t.Len = tsr.Len := by
      show t.toShape.Len = tsr.toShape.Len
      rw [h1]
    simp only [Bits.Valid]
    rw [h2, h3]
    exact hi (by rw [← h3]; exact h0)

theorem LenInv.runOps (ops : List Op) : ∀ (tsr t : Bits), LenInv tsr →
    fitsAlong ops tsr = true → runOps ops tsr = some t → LenInv t := by
  induction ops with
  | nil =>
    intro tsr t hi _ h
    simp [etensor.runOps] at h
    rw [← h]; exact hi
  | cons op ops ih =>
    intro tsr t hi hf h
    simp only [etensor.runOps, List.foldlM_cons, Option.bind_eq_bind, Option.bind_eq_some] at h
    obtain ⟨u, hu, h⟩ := h
    simp only [fitsAlong, hu, Bool.and_eq_true, Bool.or_eq_true, Bool.not_eq_true',
      decide_eq_true_eq] at hf
    refine ih u t (LenInv.step op tsr u hi ?_ hu) hf.2 h
    intro hg
    rcases hf.1 with hng | hfit
    · rw [hg] at hng; cases hng
    · exact hfit

theorem prod_nonneg_of_dims (l : List Int) (h : ∀ d ∈ l, 0 ≤ d) : 0 ≤ l.prod := by
  induction l with
  | nil => simp
  | cons d l ih =>
    rw [List.prod_cons]
    exact Int.mul_nonneg (h d (List.mem_cons_self d l))
      (ih (fun x hx => h x (List.mem_cons_of_mem d hx)))

/-- C11 (as amended): in every state reached from `NewBits` or `NewBitsShape`
by a sequence of `SetShape`, `AddRows`, `SetNumRows`, `Clone`, the element
setters, `SetFunc` and `SetZeros` in which no `AddRows` or `SetNumRows` call
starts from a shape whose product of dimension sizes has overflowed `int`: if
`Len()` is not negative then the logical length of the bit storage equals
`Len()`; that is so in particular when no dimension size is negative and their
product has not overflowed. -/
theorem Reachable.length_invariant (init tsr : Bits) (ops : List Op)
    (hinit : (∃ shape strides names, init = NewBits shape strides names) ∨
      (∃ sh, init = NewBitsShape sh))
    (hrun : runOps ops init = some tsr) (hfit : fitsAlong ops init = true) :
    (0 ≤ tsr.Len → tsr.Values.Len = tsr.Len) ∧
    (tsr.Fits → (∀ d ∈ tsr.Shp, 0 ≤ d) → tsr.Values.Len = tsr.Len) := by
  have h0 : LenInv init := by
    rcases hinit with ⟨shape, strides, names, rfl⟩ | ⟨sh, rfl⟩
    · exact LenInv.newBits shape strides names
    · exact LenInv.newBitsShape sh
  have hi := LenInv.runOps ops init tsr h0 hfit hrun
  refine ⟨hi, fun hf hd => hi ?_⟩
  rw [Shape.len_of_fits _ hf]
  exact prod_nonneg_of_dims _ hd

/-- C11 at dims `[2,3]`: after `SetFloat1D(4, 1)`, `AddRows(2)`, `Clone()`,
`SetNumRows(0)` and `SetShape([3,2,2])` the storage holds `Len() = 12` bits. -/
theorem Reachable.length_invariant_witness :
    ∃ t, runOps [Op.setter (Setter.SetFloat1D 4 Float64.one), Op.AddRows 2, Op.Clone,
        Op.SetNumRows 0, Op.SetShape [3, 2, 2] none none] (NewBits [2, 3] none none) = some t ∧
      fitsAlong [Op.setter (Setter.SetFloat1D 4 Float64.one), Op.AddRows 2, Op.Clone,
        Op.SetNumRows 0, Op.SetShape [3, 2, 2] none none] (NewBits [2, 3] none none) = true ∧
      t.Len = 12 ∧ t.Values.Len = t.Len := by
  have hrun : runOps [Op.setter (Setter.SetFloat1D 4 Float64.one), Op.AddRows 2, Op.Clone,
      Op.SetNumRows 0, Op.SetShape [3, 2, 2] none none] (NewBits [2, 3] none none)
      = some (NewBits [3, 2, 2] none none) := by decide
  refine ⟨_, hrun, by decide, by decide, ?_⟩
  exact (Reachable.length_invariant (NewBits [2, 3] none none) _ _
    (Or.inl ⟨_, _, _, rfl⟩) hrun (by decide)).1 (by decide)

/-- C11 as stated fails.  `AddRows(-5)` on the row-major tensor `NewBits([2,3])`
returns with dims `[-3,3]`, so `Len()` is `-9`, which no storage length equals;
and `NewBits([-2,3])` starts with `Len() = -6`.  With overflow it fails for a
`Len()` that is not negative as well: `NewBits([2^32, 2^32])` has `Len() = 0`
(the product `2^64` wraps), and `AddRows(1)` then computes the inner length
`0 / 2^32 = 0` and resizes the storage to `(2^32 + 1) * 0 = 0` bits, while
`Len()` becomes `(2^32 + 1) * 2^32 = 2^32`. -/
theorem Reachable.length_invariant_as_stated_fails :
    (∃ t, runOps [Op.AddRows (-5)] (NewBits [2, 3] none none) = some t ∧ Reachable t ∧
      t.Shp = [-3, 3] ∧ t.Len = -9 ∧ ¬ t.Values.Len = t.Len) ∧
    ((NewBits [-2, 3] none none).Len = -6 ∧
      ¬ (NewBits [-2, 3] none none).Values.Len = (NewBits [-2, 3] none none).Len) ∧
    (∃ t, runOps [Op.AddRows 1] (NewBits [2 ^ 32, 2 ^ 32] none none) = some t ∧ Reachable t ∧
      t.Shp = [2 ^ 32 + 1, 2 ^ 32] ∧ t.Len = 2 ^ 32 ∧ t.Values.Len = 0 ∧
      ¬ t.Values.Len = t.Len) := by
  refine ⟨?_, ⟨by decide, by decide⟩, ?_⟩
  · have h : ∃ t, runOps [Op.AddRows (-5)] (NewBits [2, 3] none none) = some t ∧
        t.Shp = [-3, 3] ∧ t.Len = -9 ∧ ¬ t.Values.Len = t.Len :=
      ⟨_, rfl, by decide, by decide, by decide⟩
    obtain ⟨t, ht, h1, h2, h3⟩ := h
    exact ⟨t, ht, ⟨_, _, Or.inl ⟨_, _, _, rfl⟩, ht⟩, h1, h2, h3⟩
  · have h : ∃ t, runOps [Op.AddRows 1] (NewBits [2 ^ 32, 2 ^ 32] none none) = some t ∧
        t.Shp = [2 ^ 32 + 1, 2 ^ 32] ∧ t.Len = 2 ^ 32 ∧ t.Values.Len = 0 ∧
        ¬ t.Values.Len = t.Len :=
      ⟨_, rfl, by decide, by decide, by decide, by decide⟩
    obtain ⟨t, ht, h1, h2, h3, h4⟩ := h
    exact ⟨t, ht, ⟨_, _, Or.inl ⟨_, _, _, rfl⟩, ht⟩, h1, h2, h3, h4⟩

end etensor

/-! ## Single writes, sums, new rows -/

namespace etensor

/-- C12: on a tensor whose storage holds `Len()` bits, for distinct in-range
flat indices `i ≠ j` and every float `v`, `SetFloat1D(i, v)` succeeds and
leaves `Value1D(j)` and `FloatVal1D(j)` (which have a value) as they were, and
the shape and `Len()` unchanged. -/
theorem Bits.setFloat1D_frame (tsr : Bits) (i j : Int) (v : Float64) (hv : tsr.Valid)
    (h0 : 0 ≤ i) (h1 : i < tsr.Len) (hj0 : 0 ≤ j) (hj1 : j < tsr.Len) (hij : i ≠ j) :
    ∃ t, tsr.SetFloat1D i v = some t ∧
      (∃ b, tsr.Value1D j = some b ∧ t.Value1D j = some b) ∧
      (∃ x, tsr.FloatVal1D j = some x ∧ t.FloatVal1D j = some x) ∧
      t.toShape = tsr.toShape ∧ t.Len = tsr.Len := by
  have hs := bitslice.Slice.set_eq_some tsr.Values i (Float64ToBool v) h0 (by rw [hv]; exact h1)
  have hne := bitslice.Slice.index_set_ne _ _ i j _ hs (Ne.symm hij)
  obtain ⟨b, hb, -⟩ := bitslice.Slice.index_eq_some tsr.Values j hj0 (by rw [hv]; exact hj1)
  refine ⟨{ tsr with Values := ⟨tsr.Values.bits.set i.toNat (Float64ToBool v)⟩ }, ?_, ?_, ?_,
    rfl, rfl⟩
  · simp [Bits.SetFloat1D, hs]
  · exact ⟨b, hb, by simp only [Bits.Value1D]; rw [hne, hb]⟩
  · refine ⟨BoolToFloat64 b, by simp [Bits.FloatVal1D, hb], ?_⟩
    simp only [Bits.FloatVal1D]
    rw [hne, hb]
    rfl

/-- C12 at dims `[2,3]`, all false: `SetFloat1D(4, 1.0)` makes `Value1D(4)`
true, and index 5 still reads false and `0.0`. -/
theorem Bits.setFloat1D_frame_witness :
    ∃ t, (NewBits [2, 3] none none).SetFloat1D 4 Float64.one = some t ∧
      t.Value1D 4 = some true ∧ t.Value1D 5 = some false ∧
      t.FloatVal1D 5 = some Float64.zero := by
  obtain ⟨t, h, ⟨b, hb, hb'⟩, ⟨x, hx, hx'⟩, -, -⟩ := Bits.setFloat1D_frame
    (NewBits [2, 3] none none) 4 5 Float64.one (by decide) (by decide) (by decide)
    (by decide) (by decide) (by decide)
  have h5 : (NewBits [2, 3] none none).Value1D 5 = some false := by decide
  have f5 : (NewBits [2, 3] none none).FloatVal1D 5 = some Float64.zero := by decide
  rw [h5] at hb; cases hb
  rw [f5] at hx; cases hx
  refine ⟨t, h, ?_, hb', hx'⟩
  have ht : (NewBits [2, 3] none none).SetFloat1D 4 Float64.one
      = some (Bits.mk ⟨[2, 3], [3, 1], ["", ""]⟩ ⟨[false, false, false, false, true, false]⟩) := by
    decide
  rw [ht] at h; cases h
  decide

theorem Float64.add_count (k : Nat) (b : Bool) :
    (Float64.ofNat k).add (BoolToFloat64 b) = Float64.ofNat (k + if b then 1 else 0) := by
  cases b
  · simp only [BoolToFloat64, Float64.ofNat, Float64.zero, Float64.add, Float64.scaled]
    by_cases hk : k = 0
    · subst hk; simp
    · have : ¬ ((k : Int) = 0) := by omega
      simp [this]
  · simp only [BoolToFloat64, Float64.ofNat, Float64.one, Float64.add, Float64.scaled]
    have h1 : ¬ ((k : Int) + 1 = 0) := by omega
    have h2 : ¬ ((k : Int) + 1 < 0) := by omega
    have h3 : ((k : Int) + 1).natAbs = k + 1 := by omega
    simp [h1, h2, h3]

theorem foldl_add_count (l : List Bool) : ∀ k : Nat,
    l.foldl (fun ag b => ag.add (BoolToFloat64 b)) (Float64.ofNat k)
      = Float64.ofNat (k + l.count true) := by
  induction l with
  | nil => intro k; simp
  | cons b l ih =>
    intro k
    rw [List.foldl_cons, Float64.add_count, ih]
    cases b
    · simp
    · simp only [if_true, List.count_cons_self]
      congr 1
      omega

theorem count_true_indices (bits : List Bool) (n : Nat) (hn : n ≤ bits.length) :
    ((List.range n).filter
        (fun (j : Nat) => (bitslice.Slice.mk bits).Index (j : Int) == some true)).length
      = (bits.take n).count true := by
  induction n with
  | zero => simp
  | succ n ih =>
    have hn' : n < bits.length := by omega
    rw [List.range_succ, List.filter_append, List.length_append, ih (by omega),
      List.take_succ, List.getElem?_eq_getElem hn', List.count_append]
    congr 1
    rw [List.filter_singleton,
      index_natCast bits n _ (List.getElem?_eq_getElem hn')]
    cases bits[n] <;> simp

/-- C13: on a tensor whose storage holds `Len()` bits, `AggFunc` with the
combine function `agg + val` (the addition taken exactly) and the initial value
`0.0` returns, as a float, the number of flat indices in `0..Len()-1` whose
value is true. -/
theorem Bits.aggFunc_sum_counts (tsr : Bits) (hv : tsr.Valid) :
    tsr.AggFunc (fun val agg => agg.add val) Float64.zero
      = some (Float64.ofNat ((List.range tsr.Len.toNat).filter
          (fun (j : Nat) => tsr.Value1D (j : Int) == some true)).length) := by
  unfold Bits.AggFunc
  simp only [hv.toNat_len.1]
  have h := aggLoop tsr.Values.bits (fun val agg => agg.add val) Float64.zero
    tsr.Values.bits.length le_rfl
  rw [List.take_length] at h
  have hc := count_true_indices tsr.Values.bits tsr.Values.bits.length le_rfl
  rw [List.take_length] at hc
  have hf := foldl_add_count tsr.Values.bits 0
  rw [Nat.zero_add] at hf
  simp only [Bits.Value1D]
  rw [hc, ← hf]
  exact h

/-- C13 at dims `[2,3]`, all false except flat index 4: the sum is `1.0`. -/
theorem Bits.aggFunc_sum_counts_witness :
    (Bits.mk ⟨[2, 3], [3, 1], ["", ""]⟩ ⟨[false, false, false, false, true, false]⟩).AggFunc
        (fun val agg => agg.add val) Float64.zero = some Float64.one := by
  rw [Bits.aggFunc_sum_counts _ (by decide)]
  decide

/-- C14 (as amended): on a row-major tensor whose storage holds `Len()` bits,
with `Dim(0) ≥ 1` and a product of dimension sizes that has not overflowed
`int`, for every `n` (so for every `n ≥ 1`), `AddRows(n)` succeeds and every
newly added element is false: `Value1D(j) = false` for every flat index `j`
with `OldLen ≤ j < NewLen`; and when `Dim(0) + n` and the new product do not
overflow, the new length is the old one plus `n` times the inner length. -/
theorem Bits.addRows_new_false (tsr : Bits) (n rows : Int) (hv : tsr.Valid)
    (hrm : tsr.IsRowMajor = true) (hd : tsr.Dim 0 = some rows) (hr : 1 ≤ rows)
    (hfit : tsr.Fits) :
    ∃ t, tsr.AddRows n = some t ∧
      (∀ j : Int, tsr.Len ≤ j → j < t.Len → t.Value1D j = some false) ∧
      (inInt64 (rows + n) → inInt64 ((rows + n) * tsr.Len.tdiv rows) →
        t.Len = tsr.Len + n * (tsr.Len.tdiv rows)) := by
  obtain ⟨rest, hs⟩ := Shape.shp_of_dim_zero tsr.toShape rows hd
  have hne : rows ≠ 0 := by omega
  have hprod : inInt64 (rows * rest.prod) := by
    have := hfit.2; rw [hs, List.prod_cons] at this; exact this
  have hlen : tsr.Len = rows * rest.prod := by
    rw [Shape.len_of_fits _ hfit, hs, List.prod_cons]
  have htd : tsr.Len.tdiv rows = rest.prod := by
    rw [hlen]; exact Int.mul_tdiv_cancel_left _ hne
  have hnew : Shape.Len { Shp := wrap64 (rows + n) :: rest, Strd := tsr.Strd, Nms := tsr.Nms }
      = wrap64 (wrap64 (rows + n) * rest.prod) := by simp [Shape.Len]
  refine ⟨_, Bits.addRows_eq tsr n rows rest hrm hs hne hprod, ?_, ?_⟩
  · intro j hj1 hj2
    have hj2' : j < wrap64 (wrap64 (rows + n) * rest.prod) := by rw [← hnew]; exact hj2
    simp only [Bits.Value1D]
    exact bitslice.Slice.setLen_index_new _ _ _ (by rw [hv]; exact hj1) hj2'
  · intro hsum hmul
    rw [htd] at hmul ⊢
    show Shape.Len { Shp := wrap64 (rows + n) :: rest, Strd := tsr.Strd, Nms := tsr.Nms } = _
    rw [hnew, wrap64_of_inInt64 _ hsum, wrap64_of_inInt64 _ hmul, hlen]
    ring

/-- C14 at dims `[2,3]` with every bit set: after `AddRows(1)` the flat indices
6, 7, 8 are false. -/
theorem Bits.addRows_new_false_witness :
    ∃ t, (Bits.mk ⟨[2, 3], [3, 1], ["", ""]⟩ ⟨[true, true, true, true, true, true]⟩).AddRows 1
        = some t ∧ t.Len = 9 ∧
      t.Value1D 6 = some false ∧ t.Value1D 7 = some false ∧ t.Value1D 8 = some false := by
  obtain ⟨t, h, hj, hl⟩ := Bits.addRows_new_false
    (Bits.mk ⟨[2, 3], [3, 1], ["", ""]⟩ ⟨[true, true, true, true, true, true]⟩) 1 2
    (by decide) (by decide) (by decide) (by decide) (by decide)
  have hl' : t.Len = 9 := by rw [hl (by decide) (by decide)]; decide
  rw [hl'] at hj
  exact ⟨t, h, hl', hj 6 (by decide) (by decide), hj 7 (by decide) (by decide),
    hj 8 (by decide) (by decide)⟩

/-- C14 as stated fails on the row-major tensor `NewBits([2^32, 2^32])`, whose
`Len()` is 0 because the product `2^64` wraps, and whose storage is empty.
`Dim(0) = 2^32 ≥ 1`, and `AddRows(1)` computes the inner length `0 / 2^32 = 0`
and resizes the storage to `(2^32 + 1) * 0 = 0` bits, while `Len()` becomes
`2^32`: the flat index 0 lies in `OldLen ≤ j < NewLen` and has no value. -/
theorem Bits.addRows_new_false_as_stated_fails :
    (NewBits [2 ^ 32, 2 ^ 32] none none).IsRowMajor = true ∧
    (NewBits [2 ^ 32, 2 ^ 32] none none).Valid ∧
    (NewBits [2 ^ 32, 2 ^ 32] none none).Dim 0 = some (2 ^ 32) ∧
    (NewBits [2 ^ 32, 2 ^ 32] none none).Len = 0 ∧
    ∃ t, (NewBits [2 ^ 32, 2 ^ 32] none none).AddRows 1 = some t ∧
      t.Len = 2 ^ 32 ∧ t.Value1D 0 = none := by
  refine ⟨by decide, by decide, by decide, by decide, ?_⟩
  exact ⟨_, rfl, by decide, by decide⟩

/-! ## The matrix interface -/

/-- C16: for every tensor and all integers `i`, `j` (in range or not), `Dims()`
returns `(0, 0)` and `At(i, j)` returns `0.0`; `Dims`, `At` and `T` are total
(no fault), each writes one line to the log, and each leaves the tensor, its
shape and every stored value, as it was; the wrapper that `T` returns holds
that same tensor. -/
theorem Bits.matrix_interface_degenerate (tsr : Bits) (i j : Int) :
    tsr.Dims.ret = (0, 0) ∧ (tsr.At i j).ret = Float64.zero ∧
    tsr.Dims.tsr = tsr ∧ (tsr.At i j).tsr = tsr ∧ tsr.T.tsr = tsr ∧
    tsr.T.ret.Matrix = tsr ∧
    tsr.Dims.log.length = 1 ∧ (tsr.At i j).log.length = 1 ∧ tsr.T.log.length = 1 :=
  ⟨rfl, rfl, rfl, rfl, rfl, rfl, rfl, rfl, rfl⟩

end etensor

/-! ## Multi-index offsets -/

namespace etensor

theorem validIndex_cons (i d : Int) (idx dims : List Int) :
    validIndex (i :: idx) (d :: dims) = true ↔ (0 ≤ i ∧ i < d) ∧ validIndex idx dims = true := by
  simp [validIndex]

theorem validIndex_shape (idx dims : List Int) (h : validIndex idx dims = true) :
    (idx = [] ∧ dims = []) ∨
      ∃ i d idx1 dims1, idx = i :: idx1 ∧ dims = d :: dims1 ∧ (0 ≤ i ∧ i < d) ∧
        validIndex idx1 dims1 = true := by
  cases idx with
  | nil =>
    cases dims with
    | nil => exact Or.inl ⟨rfl, rfl⟩
    | cons d dims => simp [validIndex] at h
  | cons i idx =>
    cases dims with
    | nil => simp [validIndex] at h
    | cons d dims =>
      exact Or.inr ⟨i, d, idx, dims, rfl, rfl, (validIndex_cons i d idx dims).mp h⟩

/-- The offset of a valid multi-index under row-major strides is a flat index,
when the product of the dimension sizes is an `int`. -/
theorem rowMajor_offset_bounds (dims : List Int) : ∀ idx : List Int,
    validIndex idx dims = true → inInt64 dims.prod →
    idx.length = (RowMajorStrides dims).length ∧
    0 ≤ (List.zipWith (fun i s => i * s) idx (RowMajorStrides dims)).sum ∧
    (List.zipWith (fun i s => i * s) idx (RowMajorStrides dims)).sum < dims.prod := by
  induction dims with
  | nil =>
    intro idx h _
    rcases validIndex_shape idx [] h with ⟨rfl, -⟩ | ⟨i, d, idx1, dims1, -, hd, -⟩
    · simp [RowMajorStrides]
    · cases hd
  | cons d dims ih =>
    intro idx h hin
    rcases validIndex_shape idx (d :: dims) h with ⟨-, hd⟩ | ⟨i, d1, idx1, dims1, rfl, hd, hi, hv⟩
    · cases hd
    · cases hd
      rw [List.prod_cons] at hin
      have hin' : inInt64 dims.prod := inInt64_of_mul d dims.prod (by omega) hin
      obtain ⟨hl, h0, h1⟩ := ih idx1 hv hin'
      simp only [RowMajorStrides, List.zipWith_cons_cons, List.sum_cons, List.length_cons,
        List.prod_cons]
      rw [wrap64_of_inInt64 _ hin']
      refine ⟨by omega, ?_, ?_⟩
      · have hp : 0 ≤ i * dims.prod := Int.mul_nonneg hi.1 (by omega)
        omega
      · have hp : (i + 1) * dims.prod ≤ d * dims.prod :=
          Int.mul_le_mul_of_nonneg_right (by omega) (by omega)
        have he : (i + 1) * dims.prod = i * dims.prod + dims.prod := by ring
        omega

/-- Under row-major strides distinct valid multi-indices have distinct offsets,
when the product of the dimension sizes is an `int`. -/
theorem rowMajor_offset_injective (dims : List Int) : ∀ idx idx' : List Int,
    validIndex idx dims = true → validIndex idx' dims = true → inInt64 dims.prod →
    (List.zipWith (fun i s => i * s) idx (RowMajorStrides dims)).sum
      = (List.zipWith (fun i s => i * s) idx' (RowMajorStrides dims)).sum →
    idx = idx' := by
  induction dims with
  | nil =>
    intro idx idx' h h' _ _
    rcases validIndex_shape idx [] h with ⟨rfl, -⟩ | ⟨_, _, _, _, -, hd, -⟩
    · rcases validIndex_shape idx' [] h' with ⟨rfl, -⟩ | ⟨_, _, _, _, -, hd, -⟩
      · rfl
      · cases hd
    · cases hd
  | cons d dims ih =>
    intro idx idx' h h' hin heq
    rcases validIndex_shape idx (d :: dims) h with ⟨-, hd⟩ | ⟨i, d1, idx1, dims1, rfl, hd, hi, hv⟩
    · cases hd
    cases hd
    rcases validIndex_shape idx' (d :: dims) h' with
      ⟨-, hd⟩ | ⟨i', d1, idx1', dims1, rfl, hd, hi', hv'⟩
    · cases hd
    cases hd
    rw [List.prod_cons] at hin
    have hin' : inInt64 dims.prod := inInt64_of_mul d dims.prod (by omega) hin
    obtain ⟨-, r0, r1⟩ := rowMajor_offset_bounds dims idx1 hv hin'
    obtain ⟨-, r0', r1'⟩ := rowMajor_offset_bounds dims idx1' hv' hin'
    simp only [RowMajorStrides, List.zipWith_cons_cons, List.sum_cons] at heq
    rw [wrap64_of_inInt64 _ hin'] at heq
    have hii : i = i' := by
      rcases lt_trichotomy i i' with hlt | heq' | hgt
      · exfalso
        have hp : (i + 1) * dims.prod ≤ i' * dims.prod :=
          Int.mul_le_mul_of_nonneg_right (by omega) (by omega)
        have he : (i + 1) * dims.prod = i * dims.prod + dims.prod := by ring
        omega
      · exact heq'
      · exfalso
        have hp : (i' + 1) * dims.prod ≤ i * dims.prod :=
          Int.mul_le_mul_of_nonneg_right (by omega) (by omega)
        have he : (i' + 1) * dims.prod = i' * dims.prod + dims.prod := by ring
        omega
    subst hii
    have hrest := ih idx1 idx1' hv hv' hin' (by omega)
    rw [hrest]

theorem Shape.offset_rowMajor (sh : Shape) (idx : List Int) (hrm : sh.IsRowMajor = true)
    (h : validIndex idx sh.Shp = true) (hin : inInt64 sh.Shp.prod) :
    sh.Offset idx
      = some (List.zipWith (fun i s => i * s) idx (RowMajorStrides sh.Shp)).sum := by
  have hs : sh.Strd = RowMajorStrides sh.Shp := by
    simpa [Shape.IsRowMajor] using hrm
  obtain ⟨hl, h0, h1⟩ := rowMajor_offset_bounds sh.Shp idx h hin
  have hw : inInt64 (List.zipWith (fun i s => i * s) idx (RowMajorStrides sh.Shp)).sum := by
    unfold inInt64 at hin ⊢
    omega
  simp [Shape.Offset, hs, hl, wrap64_of_inInt64 _ hw]

/-- C15 (as amended): on a row-major tensor whose storage holds `Len()` bits
and whose product of dimension sizes has not overflowed `int`, for valid
multi-indices `idx`, `idx'` (`0 ≤ idx[k] < dims[k]` for every `k`): the offset
`Σ idx[k]*strides[k]` exists and satisfies `0 ≤ Offset(idx) < Len()`; equal
offsets force equal multi-indices; and `Set(idx, b)` succeeds, after which
`Value(idx)` returns `b` and `Value(idx')`, for `idx' ≠ idx`, returns the
value it had before. -/
theorem Bits.offset_injective_set_value (tsr : Bits) (idx idx' : List Int) (b : Bool)
    (hv : tsr.Valid) (hrm : tsr.IsRowMajor = true) (hfit : tsr.Fits)
    (hi : validIndex idx tsr.Shp = true) (hi' : validIndex idx' tsr.Shp = true) :
    ∃ o o', tsr.Offset idx = some o ∧ tsr.Offset idx' = some o' ∧
      (0 ≤ o ∧ o < tsr.Len) ∧ (o = o' → idx = idx') ∧
      ∃ t, tsr.Set idx b = some t ∧ t.Value idx = some b ∧
        (idx' ≠ idx → ∃ c, tsr.Value idx' = some c ∧ t.Value idx' = some c) := by
  have hin : inInt64 tsr.Shp.prod := hfit.2
  have hlen : tsr.Len = tsr.Shp.prod := Shape.len_of_fits _ hfit
  have ho := Shape.offset_rowMajor tsr.toShape idx hrm hi hin
  have ho' := Shape.offset_rowMajor tsr.toShape idx' hrm hi' hin
  obtain ⟨-, h0, h1⟩ := rowMajor_offset_bounds tsr.Shp idx hi hin
  obtain ⟨-, h0', h1'⟩ := rowMajor_offset_bounds tsr.Shp idx' hi' hin
  rw [← hlen] at h1 h1'
  have hinj := fun h => rowMajor_offset_injective tsr.Shp idx idx' hi hi' hin h
  obtain ⟨vs, hs⟩ : ∃ vs, tsr.Values.Set
      (List.zipWith (fun i s => i * s) idx (RowMajorStrides tsr.Shp)).sum b = some vs :=
    ⟨_, bitslice.Slice.set_eq_some tsr.Values _ b h0 (by rw [hv]; exact h1)⟩
  refine ⟨_, _, ho, ho', ⟨h0, h1⟩, hinj, { tsr with Values := vs }, ?_, ?_, ?_⟩
  · simp only [Bits.Set, ho, hs, Option.some_bind, Option.bind_eq_bind, Option.pure_def]
  · simp only [Bits.Value, Option.bind_eq_bind]
    rw [show Shape.Offset _ idx = _ from ho]
    exact bitslice.Slice.index_set_self _ _ _ _ hs
  · intro hne
    obtain ⟨c, hc, -⟩ := bitslice.Slice.index_eq_some tsr.Values _ h0' (by rw [hv]; exact h1')
    refine ⟨c, by simp only [Bits.Value, ho', Option.some_bind, Option.bind_eq_bind, hc], ?_⟩
    simp only [Bits.Value, Option.bind_eq_bind]
    rw [show Shape.Offset _ idx' = _ from ho']
    simp only [Option.some_bind]
    rw [bitslice.Slice.index_set_ne _ _ _ _ _ hs (fun h => hne (hinj h.symm).symm), hc]

/-- C15 at dims `[2,3]`, all false: `Set([1,1], true)` writes flat index 4, and
`Value([1,2])` is still false. -/
theorem Bits.offset_injective_set_value_witness :
    (NewBits [2, 3] none none).Offset [1, 1] = some 4 ∧
    ∃ t, (NewBits [2, 3] none none).Set [1, 1] true = some t ∧
      t.Value [1, 1] = some true ∧ t.Value [1, 2] = some false := by
  obtain ⟨o, o', ho, ho', -, -, t, ht, hvt, hne⟩ := Bits.offset_injective_set_value
    (NewBits [2, 3] none none) [1, 1] [1, 2] true (by decide) (by decide) (by decide)
    (by decide) (by decide)
  obtain ⟨c, hc, hc'⟩ := hne (by decide)
  have h12 : (NewBits [2, 3] none none).Value [1, 2] = some false := by decide
  rw [h12] at hc; cases hc
  exact ⟨by decide, t, ht, hvt, hc'⟩

/-- C15 as stated fails when the product of the dimension sizes overflows.
The row-major tensor `NewBits([2^32, 2^32])` has `Len() = 0` (the product
`2^64` wraps) and an empty storage; `[0,0]` is a valid multi-index, its offset
0 is not below `Len()`, and `Set([0,0], true)` has no bit to write.  And on the
row-major shape `[2^32, 2^32, 2^32]` the stride of the first dimension is
`2^64`, which wraps to 0, so the distinct valid multi-indices `[0,0,0]` and
`[1,0,0]` have the same offset. -/
theorem Bits.offset_injective_set_value_as_stated_fails :
    ((NewBits [2 ^ 32, 2 ^ 32] none none).IsRowMajor = true ∧
      (NewBits [2 ^ 32, 2 ^ 32] none none).Valid ∧
      validIndex [0, 0] (NewBits [2 ^ 32, 2 ^ 32] none none).Shp = true ∧
      (NewBits [2 ^ 32, 2 ^ 32] none none).Offset [0, 0] = some 0 ∧
      (NewBits [2 ^ 32, 2 ^ 32] none none).Len = 0 ∧
      (NewBits [2 ^ 32, 2 ^ 32] none none).Set [0, 0] true = none ∧
      (NewBits [2 ^ 32, 2 ^ 32] none none).Value [0, 0] = none) ∧
    ((NewBits [2 ^ 32, 2 ^ 32, 2 ^ 32] none none).IsRowMajor = true ∧
      (NewBits [2 ^ 32, 2 ^ 32, 2 ^ 32] none none).Valid ∧
      validIndex [0, 0, 0] (NewBits [2 ^ 32, 2 ^ 32, 2 ^ 32] none none).Shp = true ∧
      validIndex [1, 0, 0] (NewBits [2 ^ 32, 2 ^ 32, 2 ^ 32] none none).Shp = true ∧
      (NewBits [2 ^ 32, 2 ^ 32, 2 ^ 32] none none).Offset [0, 0, 0] = some 0 ∧
      (NewBits [2 ^ 32, 2 ^ 32, 2 ^ 32] none none).Offset [1, 0, 0] = some 0) := by
  decide

end etensor

/-! ## The order of float64 -/

namespace Float64

theorem scaled_rescale (s : Bool) (m : Nat) (x e e' : Int) (h1 : e' ≤ e) (h2 : e ≤ x) :
    scaled s m x e' = scaled s m x e * ((2 ^ (e - e').toNat : Nat) : Int) := by
  have hsplit : (x - e').toNat = (x - e).toNat + (e - e').toNat := by omega
  unfold scaled
  rw [hsplit, pow_add]
  push_cast
  ring

theorem lt_finite_at (s1 s2 : Bool) (m1 m2 : Nat) (e1 e2 e : Int) (h1 : e ≤ e1) (h2 : e ≤ e2) :
    lt (finite s1 m1 e1) (finite s2 m2 e2) = true ↔ scaled s1 m1 e1 e < scaled s2 m2 e2 e := by
  have hp : (0 : Int) < ((2 ^ (min e1 e2 - e).toNat : Nat) : Int) := by positivity
  simp only [lt, decide_eq_true_eq]
  rw [scaled_rescale s1 m1 e1 (min e1 e2) e (le_min h1 h2) (min_le_left _ _),
    scaled_rescale s2 m2 e2 (min e1 e2) e (le_min h1 h2) (min_le_right _ _)]
  exact (mul_lt_mul_right hp).symm

theorem lt_irrefl (a : Float64) : lt a a = false := by
  cases a with
  | finite s m e => simp [lt]
  | inf s => cases s <;> rfl
  | nan => rfl

theorem lt_trans (a b c : Float64) (hab : lt a b = true) (hbc : lt b c = true) :
    lt a c = true := by
  cases a with
  | nan => simp [lt] at hab
  | inf sa =>
    cases b with
    | nan => simp [lt] at hab
    | inf sb =>
      cases c with
      | nan => simp [lt] at hbc
      | inf sc => cases sa <;> cases sb <;> cases sc <;> simp [lt] at hab hbc ⊢
      | finite sc mc ec => cases sa <;> cases sb <;> simp [lt] at hab hbc ⊢
    | finite sb mb eb =>
      cases c with
      | nan => simp [lt] at hbc
      | inf sc => cases sa <;> cases sc <;> simp [lt] at hab hbc ⊢
      | finite sc mc ec => cases sa <;> simp [lt] at hab ⊢
  | finite sa ma ea =>
    cases b with
    | nan => simp [lt] at hab
    | inf sb =>
      cases c with
      | nan => simp [lt] at hbc
      | inf sc => cases sb <;> cases sc <;> simp [lt] at hab hbc ⊢
      | finite sc mc ec => cases sb <;> simp [lt] at hab hbc ⊢
    | finite sb mb eb =>
      cases c with
      | nan => simp [lt] at hbc
      | inf sc => cases sc <;> simp [lt] at hbc ⊢
      | finite sc mc ec =>
        have hab' := (lt_finite_at sa sb ma mb ea eb (min ea (min eb ec))
          (min_le_left _ _) (le_trans (min_le_right _ _) (min_le_left _ _))).mp hab
        have hbc' := (lt_finite_at sb sc mb mc eb ec (min ea (min eb ec))
          (le_trans (min_le_right _ _) (min_le_left _ _))
          (le_trans (min_le_right _ _) (min_le_right _ _))).mp hbc
        exact (lt_finite_at sa sc ma mc ea ec (min ea (min eb ec))
          (min_le_left _ _) (le_trans (min_le_right _ _) (min_le_right _ _))).mpr
          (Int.lt_trans hab' hbc')

/-- Among values that are not NaN the order is total: what is below `c` is
below `b`, or `b` is below `c`. -/
theorem lt_cotrans (a b c : Float64) (hac : lt a c = true) (hb : b.isNaN = false) :
    lt a b = true ∨ lt b c = true := by
  cases b with
  | nan => simp [isNaN] at hb
  | inf sb =>
    cases a with
    | nan => simp [lt] at hac
    | inf sa =>
      cases c with
      | nan => simp [lt] at hac
      | inf sc => cases sa <;> cases sb <;> cases sc <;> simp [lt] at hac ⊢
      | finite sc mc ec => cases sa <;> cases sb <;> simp [lt] at hac ⊢
    | finite sa ma ea =>
      cases c with
      | nan => simp [lt] at hac
      | inf sc => cases sb <;> cases sc <;> simp [lt] at hac ⊢
      | finite sc mc ec => cases sb <;> simp [lt]
  | finite sb mb eb =>
    cases a with
    | nan => simp [lt] at hac
    | inf sa =>
      cases c with
      | nan => simp [lt] at hac
      | inf sc => cases sa <;> cases sc <;> simp [lt] at hac ⊢
      | finite sc mc ec => cases sa <;> simp [lt] at hac ⊢
    | finite sa ma ea =>
      cases c with
      | nan => simp [lt] at hac
      | inf sc => cases sc <;> simp [lt] at hac ⊢
      | finite sc mc ec =>
        have hac' := (lt_finite_at sa sc ma mc ea ec (min ea (min eb ec))
          (min_le_left _ _) (le_trans (min_le_right _ _) (min_le_right _ _))).mp hac
        rcases lt_or_le (scaled sa ma ea (min ea (min eb ec)))
          (scaled sb mb eb (min ea (min eb ec))) with h | h
        · exact Or.inl ((lt_finite_at sa sb ma mb ea eb (min ea (min eb ec))
            (min_le_left _ _) (le_trans (min_le_right _ _) (min_le_left _ _))).mpr h)
        · exact Or.inr ((lt_finite_at sb sc mb mc eb ec (min ea (min eb ec))
            (le_trans (min_le_right _ _) (min_le_left _ _))
            (le_trans (min_le_right _ _) (min_le_right _ _))).mpr (lt_of_le_of_lt h hac'))

theorem scaled_abs_le (s : Bool) (m : Nat) (x e : Int) :
    scaled s m x e ≤ ((m * 2 ^ (x - e).toNat : Nat) : Int) ∧
    -((m * 2 ^ (x - e).toNat : Nat) : Int) ≤ scaled s m x e := by
  unfold scaled
  cases s <;> simp

/-- No float64 but `+∞` is above `math.MaxFloat64`. -/
theorem not_maxFloat64_lt (d : Float64) (h64 : d.is64 = true) (hinf : d ≠ inf false) :
    lt MaxFloat64 d = false := by
  cases d with
  | nan => rfl
  | inf s =>
    cases s
    · exact absurd rfl hinf
    · rfl
  | finite s m e =>
    simp only [is64, Bool.and_eq_true, decide_eq_true_eq] at h64
    obtain ⟨hm, he⟩ := h64
    rw [Bool.eq_false_iff]
    intro hlt
    have h := (lt_finite_at false s (2 ^ 53 - 1) m 971 e e he le_rfl).mp hlt
    have hd := (scaled_abs_le s m e e).1
    simp only [sub_self, Int.toNat_zero, pow_zero, Nat.mul_one] at hd
    have hM : ((2 ^ 53 - 1 : Nat) : Int) ≤ scaled false (2 ^ 53 - 1) 971 e := by
      unfold scaled
      simp only [Bool.false_eq_true, if_false, one_mul]
      have hp : 1 ≤ 2 ^ (971 - e).toNat := Nat.one_le_two_pow
      have : (2 ^ 53 - 1 : Nat) * 1 ≤ (2 ^ 53 - 1 : Nat) * 2 ^ (971 - e).toNat :=
        Nat.mul_le_mul_left _ hp
      exact_mod_cast (by simpa using this)
    have hm' : (m : Int) ≤ ((2 ^ 53 - 1 : Nat) : Int) := by
      have : m ≤ 2 ^ 53 - 1 := by omega
      exact_mod_cast this
    omega

/-- No float64 but `-∞` is below `-math.MaxFloat64`. -/
theorem not_lt_neg_maxFloat64 (d : Float64) (h64 : d.is64 = true) (hinf : d ≠ inf true) :
    lt d MaxFloat64.neg = false := by
  cases d with
  | nan => rfl
  | inf s =>
    cases s
    · rfl
    · exact absurd rfl hinf
  | finite s m e =>
    simp only [is64, Bool.and_eq_true, decide_eq_true_eq] at h64
    obtain ⟨hm, he⟩ := h64
    rw [Bool.eq_false_iff]
    intro hlt
    have h := (lt_finite_at s true m (2 ^ 53 - 1) e 971 e le_rfl he).mp hlt
    have hd := (scaled_abs_le s m e e).2
    simp only [sub_self, Int.toNat_zero, pow_zero, Nat.mul_one] at hd
    have hM : scaled true (2 ^ 53 - 1) 971 e ≤ -((2 ^ 53 - 1 : Nat) : Int) := by
      unfold scaled
      simp only [if_true]
      have hp : 1 ≤ 2 ^ (971 - e).toNat := Nat.one_le_two_pow
      have : (2 ^ 53 - 1 : Nat) * 1 ≤ (2 ^ 53 - 1 : Nat) * 2 ^ (971 - e).toNat :=
        Nat.mul_le_mul_left _ hp
      have h' : ((2 ^ 53 - 1 : Nat) : Int)
          ≤ (((2 ^ 53 - 1 : Nat) * 2 ^ (971 - e).toNat : Nat) : Int) := by
        exact_mod_cast (by simpa using this)
      omega
    have hm' : (m : Int) ≤ ((2 ^ 53 - 1 : Nat) : Int) := by
      have : m ≤ 2 ^ 53 - 1 := by omega
      exact_mod_cast this
    omega

end Float64

/-! ## Folds over the pairs of two clusters -/

namespace clust

theorem foldlM_eq_foldl {σ α : Type} (l : List α) (f : σ → α → Option σ) (g : σ → α → σ)
    (h : ∀ x ∈ l, ∀ s, f s x = some (g s x)) :
    ∀ s, l.foldlM f s = some (l.foldl g s) := by
  induction l with
  | nil => intro s; rfl
  | cons x l ih =>
    intro s
    rw [List.foldlM_cons, h x (List.mem_cons_self x l) s]
    exact ih (fun y hy => h y (List.mem_cons_of_mem x hy)) (g s x)

theorem foldl_pairs {σ α β γ : Type} (x : List α) (y : List β) (E : α → β → γ)
    (g : σ → γ → σ) :
    ∀ s, x.foldl (fun st xi => y.foldl (fun st yi => g st (E xi yi)) st) s
      = (x.flatMap fun xi => y.map fun yi => E xi yi).foldl g s := by
  induction x with
  | nil => intro s; rfl
  | cons a x ih =>
    intro s
    rw [List.foldl_cons, List.flatMap_cons, List.foldl_append, List.foldl_map, ih]

/-- An index `ai*ntot+bi` with `ai`, `bi` in `[0, ntot)` is inside a matrix of
length `ntot*ntot`. -/
theorem sliceAt_pair (smat : List Float64) (ntot ai bi : Int)
    (hlen : (smat.length : Int) = ntot * ntot)
    (ha : 0 ≤ ai ∧ ai < ntot) (hb : 0 ≤ bi ∧ bi < ntot) :
    sliceAt smat (ai * ntot + bi)
      = some ((sliceAt smat (ai * ntot + bi)).getD Float64.zero) := by
  have h0 : 0 ≤ ai * ntot + bi := by
    have : 0 ≤ ai * ntot := Int.mul_nonneg ha.1 (by omega)
    omega
  have h1 : ai * ntot + bi < ntot * ntot := by
    have hp : (ai + 1) * ntot ≤ ntot * ntot :=
      Int.mul_le_mul_of_nonneg_right (by omega) (by omega)
    have he : (ai + 1) * ntot = ai * ntot + ntot := by ring
    omega
  have hlt : (ai * ntot + bi).toNat < smat.length := by omega
  simp [sliceAt, h0, List.getElem?_eq_getElem hlt]

/-- The two nested loops of the distance functions, as one fold over the
entries of the pairs. -/
theorem pairLoop {σ : Type} (x y : List Int) (ntot : Int) (smat : List Float64)
    (g : σ → Float64 → σ)
    (hlen : (smat.length : Int) = ntot * ntot)
    (hx : ∀ xi ∈ x, 0 ≤ xi ∧ xi < ntot) (hy : ∀ yi ∈ y, 0 ≤ yi ∧ yi < ntot) (s : σ) :
    x.foldlM (fun st xi =>
        y.foldlM (fun st yi => sliceAt smat (xi * ntot + yi) >>= fun d => pure (g st d)) st) s
      = some ((pairEntries x y ntot smat).foldl g s) := by
  rw [foldlM_eq_foldl x _
    (fun st xi => y.foldl
      (fun st yi => g st ((sliceAt smat (xi * ntot + yi)).getD Float64.zero)) st)]
  · rw [foldl_pairs x y (fun xi yi => (sliceAt smat (xi * ntot + yi)).getD Float64.zero) g]
    rfl
  · intro xi hxi st
    refine foldlM_eq_foldl y _ _ ?_ st
    intro yi hyi st'
    rw [sliceAt_pair smat ntot xi yi hlen (hx xi hxi) (hy yi hyi)]
    rfl

theorem mem_pairEntries (x y : List Int) (ntot : Int) (smat : List Float64) (d : Float64) :
    d ∈ pairEntries x y ntot smat ↔
      ∃ xi ∈ x, ∃ yi ∈ y, (sliceAt smat (xi * ntot + yi)).getD Float64.zero = d := by
  simp [pairEntries, List.mem_flatMap, List.mem_map]

/-- The fold that keeps the better of the value in hand and the next entry:
for a strict order that is total on the entries, the result is the start value
or an entry, and neither the start value nor any entry is better than it. -/
theorem selectFold (better : Float64 → Float64 → Bool)
    (hirr : ∀ a, better a a = false)
    (htr : ∀ a b c, better a b = true → better b c = true → better a c = true)
    (hco : ∀ a b c, better a c = true → b.isNaN = false →
      better a b = true ∨ better b c = true)
    (ds : List Float64) (hnan : ∀ d ∈ ds, d.isNaN = false) :
    ∀ init, init.isNaN = false →
      (ds.foldl (fun md d => if better d md then d else md) init = init ∨
        ds.foldl (fun md d => if better d md then d else md) init ∈ ds) ∧
      better init (ds.foldl (fun md d => if better d md then d else md) init) = false ∧
      (∀ d ∈ ds, better d (ds.foldl (fun md d => if better d md then d else md) init) = false) ∧
      (ds.foldl (fun md d => if better d md then d else md) init).isNaN = false := by
  induction ds with
  | nil =>
    intro init hinit
    exact ⟨Or.inl rfl, hirr init, fun d hd => absurd hd (List.not_mem_nil d), hinit⟩
  | cons d ds ih =>
    intro init hinit
    have hd : d.isNaN = false := hnan d (List.mem_cons_self d ds)
    have hds : ∀ x ∈ ds, x.isNaN = false := fun x hx => hnan x (List.mem_cons_of_mem d hx)
    rw [List.foldl_cons]
    by_cases hb : better d init = true
    · simp only [hb, if_true]
      obtain ⟨h1, h2, h3, h4⟩ := ih hds d hd
      refine ⟨Or.inr ?_, ?_, ?_, h4⟩
      · rcases h1 with h1 | h1
        · rw [h1]; exact List.mem_cons_self d ds
        · exact List.mem_cons_of_mem d h1
      · rw [Bool.eq_false_iff]
        intro hbad
        rcases hco d _ init hb h4 with h | h
        · rw [h2] at h; cases h
        · have := htr _ _ _ hbad h
          rw [hirr] at this; cases this
      · intro x hx
        rcases List.mem_cons.mp hx with rfl | hx
        · exact h2
        · exact h3 x hx
    · have hb' : better d init = false := by simpa using hb
      simp only [hb', Bool.false_eq_true, if_false]
      obtain ⟨h1, h2, h3, h4⟩ := ih hds init hinit
      refine ⟨?_, h2, ?_, h4⟩
      · rcases h1 with h1 | h1
        · exact Or.inl h1
        · exact Or.inr (List.mem_cons_of_mem d h1)
      · intro x hx
        rcases List.mem_cons.mp hx with rfl | hx
        · rw [Bool.eq_false_iff]
          intro hbad
          rcases hco x init _ hbad hinit with h | h
          · rw [hb'] at h; cases h
          · rw [h2] at h; cases h
        · exact h3 x hx

theorem le_of_not_lt (a b : Float64) (ha : a.isNaN = false) (hb : b.isNaN = false)
    (h : Float64.lt b a = false) : Float64.le a b = true := by
  cases a <;> cases b <;> simp_all [Float64.le, Float64.isNaN]

theorem eq_of_not_lt (a b : Float64) (ha : a.isNaN = false) (hb : b.isNaN = false)
    (h1 : Float64.lt a b = false) (h2 : Float64.lt b a = false) : Float64.eq a b = true := by
  cases a <;> cases b <;> simp_all [Float64.eq, Float64.isNaN]

end clust

/-! ## MinDist and MaxDist -/

namespace clust

theorem MinDist_eq (aix bix : List Int) (ntot : Int) (smat : List Float64)
    (hlen : (smat.length : Int) = ntot * ntot)
    (ha : ∀ ai ∈ aix, 0 ≤ ai ∧ ai < ntot) (hb : ∀ bi ∈ bix, 0 ≤ bi ∧ bi < ntot) :
    MinDist aix bix ntot smat
      = some ((pairEntries aix bix ntot smat).foldl
          (fun md d => if Float64.lt d md then d else md) Float64.MaxFloat64) :=
  pairLoop aix bix ntot smat (fun md d => if Float64.lt d md then d else md) hlen ha hb _

theorem MaxDist_eq (aix bix : List Int) (ntot : Int) (smat : List Float64)
    (hlen : (smat.length : Int) = ntot * ntot)
    (ha : ∀ ai ∈ aix, 0 ≤ ai ∧ ai < ntot) (hb : ∀ bi ∈ bix, 0 ≤ bi ∧ bi < ntot) :
    MaxDist aix bix ntot smat
      = some ((pairEntries aix bix ntot smat).foldl
          (fun md d => if Float64.lt md d then d else md) Float64.MaxFloat64.neg) :=
  pairLoop aix bix ntot smat (fun md d => if Float64.lt md d then d else md) hlen ha hb _

/-- C17 (as amended): for a matrix `smat` of length `ntot*ntot` and index lists
with entries in `[0, ntot)`, when the entries `smat[ai*ntot+bi]` over the pairs
are float64 values none of which is NaN: if at least one of them is not `+∞`,
`MinDist` returns a value that is `<=` every such entry and `==` one of them,
the minimum; if at least one of them is not `-∞`, `MaxDist` returns a value
that is `>=` every such entry and `==` one of them, the maximum. -/
theorem MinDist_MaxDist_extremum (aix bix : List Int) (ntot : Int) (smat : List Float64)
    (hlen : (smat.length : Int) = ntot * ntot)
    (ha : ∀ ai ∈ aix, 0 ≤ ai ∧ ai < ntot) (hb : ∀ bi ∈ bix, 0 ≤ bi ∧ bi < ntot)
    (h64 : ∀ d ∈ pairEntries aix bix ntot smat, d.is64 = true ∧ d.isNaN = false) :
    ((∃ d ∈ pairEntries aix bix ntot smat, d ≠ Float64.inf false) →
      ∃ r, MinDist aix bix ntot smat = some r ∧
        (∀ d ∈ pairEntries aix bix ntot smat, r.le d = true) ∧
        ∃ d ∈ pairEntries aix bix ntot smat, r.eq d = true) ∧
    ((∃ d ∈ pairEntries aix bix ntot smat, d ≠ Float64.inf true) →
      ∃ r, MaxDist aix bix ntot smat = some r ∧
        (∀ d ∈ pairEntries aix bix ntot smat, d.le r = true) ∧
        ∃ d ∈ pairEntries aix bix ntot smat, r.eq d = true) := by
  have hnan : ∀ d ∈ pairEntries aix bix ntot smat, d.isNaN = false := fun d hd => (h64 d hd).2
  constructor
  · rintro ⟨d0, hd0, hne⟩
    obtain ⟨h1, -, h3, h4⟩ := selectFold (fun d md => Float64.lt d md) Float64.lt_irrefl
      (fun a b c => Float64.lt_trans a b c) (fun a b c => Float64.lt_cotrans a b c)
      (pairEntries aix bix ntot smat) hnan Float64.MaxFloat64 rfl
    refine ⟨_, MinDist_eq aix bix ntot smat hlen ha hb, ?_, ?_⟩
    · intro d hd
      exact le_of_not_lt _ d h4 (hnan d hd) (h3 d hd)
    · rcases h1 with h1 | h1
      · refine ⟨d0, hd0, ?_⟩
        have hlow := h3 d0 hd0
        simp only [h1] at hlow ⊢
        exact eq_of_not_lt _ d0 rfl (hnan d0 hd0)
          (Float64.not_maxFloat64_lt d0 (h64 d0 hd0).1 hne) hlow
      · exact ⟨_, h1, eq_of_not_lt _ _ h4 h4 (Float64.lt_irrefl _) (Float64.lt_irrefl _)⟩
  · rintro ⟨d0, hd0, hne⟩
    obtain ⟨h1, -, h3, h4⟩ := selectFold (fun d md => Float64.lt md d) Float64.lt_irrefl
      (fun a b c hab hbc => Float64.lt_trans c b a hbc hab)
      (fun a b c hac hb => (Float64.lt_cotrans c b a hac hb).symm)
      (pairEntries aix bix ntot smat) hnan Float64.MaxFloat64.neg rfl
    refine ⟨_, MaxDist_eq aix bix ntot smat hlen ha hb, ?_, ?_⟩
    · intro d hd
      exact le_of_not_lt d _ (hnan d hd) h4 (h3 d hd)
    · rcases h1 with h1 | h1
      · refine ⟨d0, hd0, ?_⟩
        have hhigh := h3 d0 hd0
        simp only [h1] at hhigh ⊢
        exact eq_of_not_lt _ d0 rfl (hnan d0 hd0) hhigh
          (Float64.not_lt_neg_maxFloat64 d0 (h64 d0 hd0).1 hne)
      · exact ⟨_, h1, eq_of_not_lt _ _ h4 h4 (Float64.lt_irrefl _) (Float64.lt_irrefl _)⟩

/-- C17 on two nodes at distance 3: `MinDist` of the clusters `[0]` and `[1]`
returns a value that is `<=` and `==` the entry `smat[1]`. -/
theorem MinDist_MaxDist_extremum_witness :
    ∃ r, MinDist [0] [1] 2 [Float64.zero, Float64.finite false 3 0,
        Float64.finite false 3 0, Float64.zero] = some r ∧
      (∀ d ∈ pairEntries [0] [1] 2 [Float64.zero, Float64.finite false 3 0,
        Float64.finite false 3 0, Float64.zero], r.le d = true) ∧
      ∃ d ∈ pairEntries [0] [1] 2 [Float64.zero, Float64.finite false 3 0,
        Float64.finite false 3 0, Float64.zero], r.eq d = true :=
  (MinDist_MaxDist_extremum [0] [1] 2 [Float64.zero, Float64.finite false 3 0,
    Float64.finite false 3 0, Float64.zero] (by decide) (by decide) (by decide)
    (by decide)).1 ⟨Float64.finite false 3 0, by decide, by decide⟩

/-- C17 as stated fails on matrices with NaN or with nothing but infinities.
With the single entry NaN, `MinDist` returns `math.MaxFloat64`, which is
neither `<=` nor `==` that entry; with the single entry `+∞` it returns
`math.MaxFloat64`, which is not `==` that entry; with the single entry `-∞`,
`MaxDist` returns `-math.MaxFloat64`, which is not `==` that entry. -/
theorem MinDist_MaxDist_as_stated_fails :
    (MinDist [0] [0] 1 [Float64.nan] = some Float64.MaxFloat64 ∧
      Float64.MaxFloat64.le Float64.nan = false ∧
      Float64.MaxFloat64.eq Float64.nan = false) ∧
    (MinDist [0] [0] 1 [Float64.inf false] = some Float64.MaxFloat64 ∧
      Float64.MaxFloat64.eq (Float64.inf false) = false) ∧
    (MaxDist [0] [0] 1 [Float64.inf true] = some Float64.MaxFloat64.neg ∧
      Float64.MaxFloat64.neg.eq (Float64.inf true) = false) := by
  decide

end clust

/-! ## AvgDist and ContrastDist -/

namespace clust

theorem foldl_sum_count (ops : FloatOps) (ds : List Float64) : ∀ (md : Float64) (n : Int),
    ds.foldl (fun (st : Float64 × Int) d => (ops.add st.1 d, st.2 + 1)) (md, n)
      = (ds.foldl ops.add md, n + ds.length) := by
  induction ds with
  | nil => intro md n; simp
  | cons d ds ih =>
    intro md n
    rw [List.foldl_cons, ih, List.foldl_cons, List.length_cons]
    push_cast
    rw [Int.add_assoc, Int.add_comm 1]

/-- `AvgDist` on in-range clusters returns the mean of the entries of the
pairs. -/
theorem AvgDist_eq (ops : FloatOps) (x y : List Int) (ntot : Int) (smat : List Float64)
    (hlen : (smat.length : Int) = ntot * ntot)
    (hx : ∀ xi ∈ x, 0 ≤ xi ∧ xi < ntot) (hy : ∀ yi ∈ y, 0 ≤ yi ∧ yi < ntot) :
    AvgDist ops x y ntot smat = some (mean ops (pairEntries x y ntot smat)) := by
  have h := pairLoop x y ntot smat
    (fun (st : Float64 × Int) d => (ops.add st.1 d, st.2 + 1)) hlen hx hy (Float64.zero, 0)
  rw [foldl_sum_count] at h
  unfold AvgDist
  simp only [Option.bind_eq_bind] at h ⊢
  rw [h]
  simp only [Option.some_bind, Option.pure_def, zero_add, mean]
  cases hds : pairEntries x y ntot smat with
  | nil => simp
  | cons d ds => simp

theorem mem_countTo (n ix : Int) : ix ∈ countTo n ↔ 0 ≤ ix ∧ ix < n := by
  unfold countTo
  constructor
  · intro h
    obtain ⟨k, hk, rfl⟩ := List.mem_map.mp h
    have := List.mem_range.mp hk
    simp only [Int.ofNat_eq_coe]
    omega
  · rintro ⟨h0, h1⟩
    exact List.mem_map.mpr ⟨ix.toNat, List.mem_range.mpr (by omega), by simp; omega⟩

theorem nodup_countTo (n : Int) : (countTo n).Nodup :=
  List.Nodup.map (fun a b h => by simpa using h) (List.nodup_range _)

theorem length_countTo (n : Int) : (countTo n).length = n.toNat := by
  simp [countTo]

theorem mem_outside (abix : List Int) (ntot ix : Int) :
    ix ∈ outside abix ntot ↔ (0 ≤ ix ∧ ix < ntot) ∧ ix ∉ abix := by
  simp [outside, mem_countTo]

theorem sorted_outside (abix : List Int) (ntot : Int) :
    (outside abix ntot).Sorted (fun a b => a < b) := by
  unfold outside countTo
  refine List.Pairwise.filter _ ?_
  exact List.Pairwise.map _ (fun a b h => by simpa using h) (List.pairwise_lt_range _)

/-- The loop that fills `oix`, started with `pre` written and `rest` free: it
writes the outside indices after `pre` if they fit into `rest`, and faults on
the first write that does not fit. -/
theorem fillLoop (abmap : List Int) : ∀ (ixs pre rest : List Int),
    ixs.foldlM (fun (st : List Int × Nat) ix =>
        if ix ∉ abmap then
          if st.2 < st.1.length then some (st.1.set st.2 ix, st.2 + 1) else none
        else some st) (pre ++ rest, pre.length)
      = if (ixs.filter fun ix => decide (ix ∉ abmap)).length ≤ rest.length then
          some (pre ++ (ixs.filter fun ix => decide (ix ∉ abmap))
              ++ rest.drop (ixs.filter fun ix => decide (ix ∉ abmap)).length,
            pre.length + (ixs.filter fun ix => decide (ix ∉ abmap)).length)
        else none := by
  intro ixs
  induction ixs with
  | nil => intro pre rest; simp
  | cons ix ixs ih =>
    intro pre rest
    rw [List.foldlM_cons]
    by_cases hmem : ix ∈ abmap
    · simp only [hmem, not_true_eq_false, if_false, Option.some_bind, Option.bind_eq_bind,
        decide_False, List.filter_cons_of_neg, Bool.false_eq_true, not_false_eq_true]
      exact ih pre rest
    · have hf : (List.filter (fun ix => decide (ix ∉ abmap)) (ix :: ixs))
          = ix :: List.filter (fun ix => decide (ix ∉ abmap)) ixs := by
        simp [hmem]
      rw [hf]
      cases rest with
      | nil => simp [hmem]
      | cons r rest =>
        have hset : (pre ++ r :: rest).set pre.length ix = (pre ++ [ix]) ++ rest := by
          rw [List.set_append_right _ _ le_rfl]
          simp
        have hih := ih (pre ++ [ix]) rest
        simp only [List.length_append, List.length_singleton] at hih
        simp only [hmem, not_false_eq_true, if_true, List.length_append, List.length_cons,
          Nat.lt_add_right_iff_pos, Nat.zero_lt_succ, Option.some_bind, Option.bind_eq_bind,
          hset]
        rw [hih]
        simp only [List.length_cons, Nat.add_le_add_iff_right, List.drop_succ_cons,
          List.append_assoc, List.singleton_append]
        by_cases hfit : (List.filter (fun ix => decide (ix ∉ abmap)) ixs).length ≤ rest.length
        · simp only [hfit, if_true, Option.some.injEq, Prod.mk.injEq, true_and]
          omega
        · simp only [hfit, if_false]

/-- The loop of `ContrastDist` on a slice of `len` zeros: it returns the
outside indices exactly when there are `len` of them, and faults at a write
when there are more. -/
theorem fill_replicate (abix : List Int) (ntot : Int) (len : Nat) :
    ContrastDist.fill abix ntot (List.replicate len 0)
      = if (outside abix ntot).length ≤ len then
          some (outside abix ntot
              ++ List.replicate (len - (outside abix ntot).length) 0,
            (outside abix ntot).length)
        else none := by
  have h := fillLoop abix (countTo ntot) [] (List.replicate len 0)
  simp only [List.nil_append, List.length_nil, Nat.zero_add, List.length_replicate,
    List.drop_replicate] at h
  exact h

/-- How many indices of `[0, ntot)` lie outside: `ntot` less the distinct
indices of the clusters that are in range. -/
theorem length_outside (abix : List Int) (ntot : Int) :
    (outside abix ntot).length
      + ((countTo ntot).filter fun ix => decide (ix ∈ abix)).length = ntot.toNat := by
  have h := List.length_eq_countP_add_countP (fun ix => decide (ix ∈ abix)) (countTo ntot)
  rw [List.countP_eq_length_filter, List.countP_eq_length_filter, length_countTo] at h
  have hsame : List.filter (fun a => decide ¬decide (a ∈ abix) = true) (countTo ntot)
      = outside abix ntot := by
    unfold outside
    congr 1
    funext a
    simp
  rw [hsame] at h
  omega

theorem length_inside_le (abix : List Int) (ntot : Int) :
    ((countTo ntot).filter fun ix => decide (ix ∈ abix)).length ≤ abix.dedup.length := by
  refine List.Subperm.length_le (List.Nodup.subperm ?_ ?_)
  · exact List.Nodup.filter _ (nodup_countTo ntot)
  · intro a ha
    have := (List.mem_filter.mp ha).2
    exact List.mem_dedup.mpr (by simpa using this)

theorem length_inside_eq (abix : List Int) (ntot : Int) (hnd : abix.Nodup)
    (hin : ∀ ix ∈ abix, 0 ≤ ix ∧ ix < ntot) :
    ((countTo ntot).filter fun ix => decide (ix ∈ abix)).length = abix.length := by
  refine List.Perm.length_eq ((List.perm_ext_iff_of_nodup ?_ hnd).mpr ?_)
  · exact List.Nodup.filter _ (nodup_countTo ntot)
  · intro a
    simp only [List.mem_filter, mem_countTo, decide_eq_true_eq]
    exact ⟨fun h => h.2, fun h => ⟨hin a h, h⟩⟩

theorem dedup_length_lt (abix : List Int) (hdup : ¬ abix.Nodup) :
    abix.dedup.length < abix.length := by
  have hle := (List.dedup_sublist abix).length_le
  rcases Nat.lt_or_ge abix.dedup.length abix.length with h | h
  · exact h
  · exfalso
    have heq := (List.dedup_sublist abix).eq_of_length (by omega)
    exact hdup (List.dedup_eq_self.mp heq)

end clust

namespace clust

theorem makeInts_fill (aix bix : List Int) (ntot : Nat)
    (hin : ∀ ix ∈ aix ++ bix, 0 ≤ ix ∧ ix < (ntot : Int)) (hnd : (aix ++ bix).Nodup) :
    ((outside (aix ++ bix) ntot).length : Int)
        = (ntot : Int) - ((aix.length : Int) + (bix.length : Int)) ∧
    makeInts ((ntot : Int) - ((aix.length : Int) + (bix.length : Int)))
      = some (List.replicate (outside (aix ++ bix) ntot).length 0) ∧
    ContrastDist.fill (aix ++ bix) ntot (List.replicate (outside (aix ++ bix) ntot).length 0)
      = some (outside (aix ++ bix) ntot, (outside (aix ++ bix) ntot).length) := by
  have h1 := length_outside (aix ++ bix) ntot
  have h2 := length_inside_eq (aix ++ bix) ntot hnd hin
  rw [h2, List.length_append] at h1
  have hcount : ((outside (aix ++ bix) ntot).length : Int)
      = (ntot : Int) - ((aix.length : Int) + (bix.length : Int)) := by
    simp only [Int.toNat_ofNat] at h1
    omega
  refine ⟨hcount, ?_, ?_⟩
  · unfold makeInts
    rw [← hcount]
    simp
  · rw [fill_replicate]
    simp

/-- C18: for a node count `ntot`, a matrix `smat` of length `ntot*ntot` and
clusters `aix`, `bix` with in-range, pairwise distinct indices, and whatever
the rounding of the float operators: `ContrastDist` returns
`AvgDist(aix ++ bix, oix) - AvgDist(aix, bix)`, where `oix` is the ascending
list of the indices in `[0, ntot)` that occur in neither cluster, and each of
the two `AvgDist` values is the arithmetic mean of the entries
`smat[xi*ntot+yi]` over its pairs (`0` when there are no pairs). -/
theorem ContrastDist_between_minus_within (ops : FloatOps) (aix bix : List Int) (ntot : Nat)
    (smat : List Float64) (hlen : smat.length = ntot * ntot)
    (ha : ∀ ai ∈ aix, 0 ≤ ai ∧ ai < (ntot : Int))
    (hb : ∀ bi ∈ bix, 0 ≤ bi ∧ bi < (ntot : Int)) (hnd : (aix ++ bix).Nodup) :
    ∃ bd wd,
      AvgDist ops (aix ++ bix) (outside (aix ++ bix) ntot) ntot smat = some bd ∧
      AvgDist ops aix bix ntot smat = some wd ∧
      ContrastDist ops aix bix ntot smat = some (ops.sub bd wd) ∧
      bd = mean ops (pairEntries (aix ++ bix) (outside (aix ++ bix) ntot) ntot smat) ∧
      wd = mean ops (pairEntries aix bix ntot smat) ∧
      (outside (aix ++ bix) ntot).Sorted (fun a b => a < b) ∧
      ∀ ix, ix ∈ outside (aix ++ bix) ntot ↔
        (0 ≤ ix ∧ ix < (ntot : Int)) ∧ ix ∉ aix ∧ ix ∉ bix := by
  have hlen' : (smat.length : Int) = (ntot : Int) * (ntot : Int) := by
    rw [hlen]; push_cast; rfl
  have hin : ∀ ix ∈ aix ++ bix, 0 ≤ ix ∧ ix < (ntot : Int) := by
    intro ix hix
    rcases List.mem_append.mp hix with h | h
    · exact ha ix h
    · exact hb ix h
  have hout : ∀ ix ∈ outside (aix ++ bix) ntot, 0 ≤ ix ∧ ix < (ntot : Int) :=
    fun ix hix => ((mem_outside _ _ _).mp hix).1
  have hwd := AvgDist_eq ops aix bix ntot smat hlen' ha hb
  have hbd := AvgDist_eq ops (aix ++ bix) (outside (aix ++ bix) ntot) ntot smat hlen' hin hout
  obtain ⟨-, hmk, hfill⟩ := makeInts_fill aix bix ntot hin hnd
  refine ⟨_, _, hbd, hwd, ?_, rfl, rfl, sorted_outside _ _, ?_⟩
  · unfold ContrastDist
    simp only [hwd, hmk, hfill, hbd, Option.some_bind, Option.bind_eq_bind, Option.pure_def]
  · intro ix
    rw [mem_outside]
    simp [List.mem_append, not_or]

/-- C18 on four nodes with the clusters `[0]` and `[1]`: the outside indices
are `[2, 3]`. -/
theorem ContrastDist_between_minus_within_witness :
    outside ([0] ++ [1]) 4 = [2, 3] ∧
    ∃ bd wd,
      AvgDist FloatOps.sample ([0] ++ [1]) [2, 3] 4
        (List.replicate 16 (Float64.finite false 3 0)) = some bd ∧
      AvgDist FloatOps.sample [0] [1] 4 (List.replicate 16 (Float64.finite false 3 0))
        = some wd ∧
      ContrastDist FloatOps.sample [0] [1] 4 (List.replicate 16 (Float64.finite false 3 0))
        = some (FloatOps.sample.sub bd wd) := by
  have ho : outside ([0] ++ [1]) ((4 : Nat) : Int) = [2, 3] := by decide
  obtain ⟨bd, wd, h1, h2, h3, -⟩ := ContrastDist_between_minus_within FloatOps.sample
    [0] [1] 4 (List.replicate 16 (Float64.finite false 3 0)) (by decide) (by decide)
    (by decide) (by decide)
  rw [ho] at h1
  exact ⟨ho, bd, wd, h1, h2, h3⟩

/-- C19 (as amended): for a node count `ntot`: if every entry of `aix` and
`bix` lies in `[0, ntot)` and no index occurs twice across `aix ++ bix`, the
number of indices of `[0, ntot)` outside the clusters is exactly
`ntot - len(aix) - len(bix)`, the allocation of `oix` succeeds, every write
`oix[octr]` is within it and the loop ends with `oix` filled and
`octr = len(oix)`; whereas if some index is repeated, the number of outside
indices exceeds `ntot - nab` and `ContrastDist` faults: when the allocation of
`oix` succeeds a write `oix[octr]` goes out of bounds, and when `nab > ntot`
it is the allocation `make([]int, ntot-nab)` that faults. -/
theorem ContrastDist_index_safety (aix bix : List Int) (ntot : Nat) :
    ((∀ ix ∈ aix ++ bix, 0 ≤ ix ∧ ix < (ntot : Int)) → (aix ++ bix).Nodup →
      ((outside (aix ++ bix) ntot).length : Int)
          = (ntot : Int) - (aix.length : Int) - (bix.length : Int) ∧
      ∃ oix, makeInts ((ntot : Int) - ((aix.length : Int) + (bix.length : Int))) = some oix ∧
        ContrastDist.fill (aix ++ bix) ntot oix
          = some (outside (aix ++ bix) ntot, oix.length)) ∧
    (¬ (aix ++ bix).Nodup →
      (ntot : Int) - ((aix.length : Int) + (bix.length : Int))
          < ((outside (aix ++ bix) ntot).length : Int) ∧
      (∀ oix, makeInts ((ntot : Int) - ((aix.length : Int) + (bix.length : Int))) = some oix →
        ContrastDist.fill (aix ++ bix) ntot oix = none) ∧
      ((ntot : Int) < (aix.length : Int) + (bix.length : Int) →
        makeInts ((ntot : Int) - ((aix.length : Int) + (bix.length : Int))) = none) ∧
      ∀ ops smat, ContrastDist ops aix bix ntot smat = none) := by
  constructor
  · intro hin hnd
    obtain ⟨hcount, hmk, hfill⟩ := makeInts_fill aix bix ntot hin hnd
    refine ⟨by omega, _, hmk, ?_⟩
    rw [hfill, List.length_replicate]
  · intro hdup
    have h1 := length_outside (aix ++ bix) ntot
    have h2 := length_inside_le (aix ++ bix) ntot
    have h3 := dedup_length_lt (aix ++ bix) hdup
    rw [List.length_append] at h3
    simp only [Int.toNat_ofNat] at h1
    have hcount : (ntot : Int) - ((aix.length : Int) + (bix.length : Int))
        < ((outside (aix ++ bix) ntot).length : Int) := by omega
    have hfill : ∀ oix, makeInts ((ntot : Int) - ((aix.length : Int) + (bix.length : Int)))
        = some oix → ContrastDist.fill (aix ++ bix) ntot oix = none := by
      intro oix hmk
      unfold makeInts at hmk
      split at hmk
      · cases hmk
      · cases hmk
        rw [fill_replicate, if_neg]
        omega
    have hmake : (ntot : Int) < (aix.length : Int) + (bix.length : Int) →
        makeInts ((ntot : Int) - ((aix.length : Int) + (bix.length : Int))) = none := by
      intro hlt
      unfold makeInts
      rw [if_pos (by omega)]
    refine ⟨hcount, hfill, hmake, ?_⟩
    intro ops smat
    unfold ContrastDist
    cases hwd : AvgDist ops aix bix ntot smat with
    | none => rfl
    | some wd =>
      cases hmk : makeInts ((ntot : Int) - ((aix.length : Int) + (bix.length : Int))) with
      | none => simp [hmk]
      | some oix => simp [hmk, hfill oix hmk]

/-- C19 on four nodes with the clusters `[0]` and `[1]`: two indices are
outside, `oix` has length 2 and the loop fills it with `[2, 3]`. -/
theorem ContrastDist_index_safety_witness :
    ((outside ([0] ++ [1]) ((4 : Nat) : Int)).length : Int) = 4 - 1 - 1 ∧
    ∃ oix, makeInts (4 - (1 + 1)) = some oix ∧
      ContrastDist.fill ([0] ++ [1]) 4 oix = some ([2, 3], oix.length) := by
  obtain ⟨hc, oix, hmk, hfill⟩ := (ContrastDist_index_safety [0] [1] 4).1
    (by decide) (by decide)
  have ho : outside ([0] ++ [1]) ((4 : Nat) : Int) = [2, 3] := by decide
  rw [ho] at hfill
  exact ⟨hc, oix, hmk, hfill⟩

/-- C19 as stated fails on two nodes with the clusters `[0, 0]` and `[1]`: the
index 0 is repeated and the number of outside indices, 0, exceeds
`ntot - nab = -1`, but no write `oix[octr]` goes out of bounds: the allocation
`make([]int, -1)` faults before the loop, and `ContrastDist` with it. -/
theorem ContrastDist_index_safety_as_stated_fails :
    ¬ ([0, 0] ++ [1] : List Int).Nodup ∧
    (outside ([0, 0] ++ [1]) 2).length = 0 ∧
    makeInts (2 - (([0, 0] : List Int).length + ([1] : List Int).length)) = none ∧
    ContrastDist FloatOps.sample [0, 0] [1] 2 (List.replicate 4 (Float64.finite false 3 0))
      = none := by
  decide

end clust

/-! ## The names of the plot types -/

namespace eplot

theorem nameAt_values : nameAt 0 = "XY" ∧ nameAt 1 = "Bar" ∧ nameAt 2 = "PlotTypesN" := by
  decide

/-- The loop of `FromString`, by cases on the string. -/
theorem fromString_cases (r : PlotTypes) (s : GoString) :
    PlotTypes.FromString r s
      = if s = "XY" then (0, none)
        else if s = "Bar" then (1, none)
        else if s = "PlotTypesN" then (2, none)
        else (r, some ("String: " ++ s ++ " is not a valid option for type: PlotTypes")) := by
  obtain ⟨h0, h1, h2⟩ := nameAt_values
  have hr : List.range (_PlotTypes_index.length - 1) = [0, 1, 2] := by decide
  unfold PlotTypes.FromString
  rw [hr]
  by_cases c0 : s = "XY"
  · subst c0
    simp [List.find?, h0]
  · by_cases c1 : s = "Bar"
    · subst c1
      simp [List.find?, h0, h1]
    · by_cases c2 : s = "PlotTypesN"
      · subst c2
        simp [List.find?, h0, h1, h2]
      · have b0 : (s == "XY") = false := beq_eq_false_iff_ne.mpr c0
        have b1 : (s == "Bar") = false := beq_eq_false_iff_ne.mpr c1
        have b2 : (s == "PlotTypesN") = false := beq_eq_false_iff_ne.mpr c2
        simp [List.find?, h0, h1, h2, c0, c1, c2, b0, b1, b2]

/-- A string that starts with `PlotTypes(` is none of the three names. -/
theorem paren_form_not_a_name (x : GoString) :
    "PlotTypes(" ++ x ++ ")" ≠ "XY" ∧ "PlotTypes(" ++ x ++ ")" ≠ "Bar" ∧
    "PlotTypes(" ++ x ++ ")" ≠ "PlotTypesN" := by
  have hd : ("PlotTypes(" ++ x ++ ")").data
      = 'P' :: 'l' :: 'o' :: 't' :: 'T' :: 'y' :: 'p' :: 'e' :: 's' :: '(' :: (x.data ++ [')']) := by
    simp [String.data_append]
  refine ⟨?_, ?_, ?_⟩ <;> intro h <;> have h' := congrArg String.data h <;>
    rw [hd] at h' <;> simp at h'

/-- C20: for every valid value `i` (`XY = 0`, `Bar = 1`, `PlotTypesN = 2`),
`FromString(String(i))` returns `nil` and sets the receiver to `i`;
`FromString(s)` returns an error exactly when `s` is none of `"XY"`, `"Bar"`,
`"PlotTypesN"`, and then leaves the receiver unchanged; and for every `i`
outside `0..2`, `String(i)` is `"PlotTypes(<decimal i>)"`, which `FromString`
rejects. -/
theorem PlotTypes_string_codec (r i : PlotTypes) (s : GoString) :
    ((i = XY ∨ i = Bar ∨ i = PlotTypesN) →
      PlotTypes.FromString r (PlotTypes.String i) = (i, none)) ∧
    (((PlotTypes.FromString r s).2 ≠ none ↔ s ≠ "XY" ∧ s ≠ "Bar" ∧ s ≠ "PlotTypesN") ∧
      ((PlotTypes.FromString r s).2 ≠ none → (PlotTypes.FromString r s).1 = r)) ∧
    ((i < 0 ∨ 2 < i) →
      PlotTypes.String i = "PlotTypes(" ++ FormatInt10 i ++ ")" ∧
      (PlotTypes.FromString r (PlotTypes.String i)).2 ≠ none ∧
      (PlotTypes.FromString r (PlotTypes.String i)).1 = r) := by
  refine ⟨?_, ⟨?_, ?_⟩, ?_⟩
  · rintro (rfl | rfl | rfl) <;> rfl
  · rw [fromString_cases]
    by_cases c0 : s = "XY"
    · simp [c0]
    · by_cases c1 : s = "Bar"
      · simp [c1]
      · by_cases c2 : s = "PlotTypesN"
        · simp [c2]
        · simp [c0, c1, c2]
  · rw [fromString_cases]
    by_cases c0 : s = "XY"
    · simp [c0]
    · by_cases c1 : s = "Bar"
      · simp [c1]
      · by_cases c2 : s = "PlotTypesN"
        · simp [c2]
        · simp [c0, c1, c2]
  · intro hout
    have hs : PlotTypes.String i = "PlotTypes(" ++ FormatInt10 i ++ ")" := by
      unfold PlotTypes.String
      have hl : ((_PlotTypes_index.length - 1 : Nat) : Int) = 3 := by decide
      rw [hl, if_pos]
      rcases hout with h | h
      · exact Or.inl h
      · exact Or.inr (Int.add_one_le_of_lt h)
    obtain ⟨n0, n1, n2⟩ := paren_form_not_a_name (FormatInt10 i)
    rw [hs, fromString_cases]
    simp [n0, n1, n2]

/-- C20 at `Bar`, at the string `"bar"` and at the value 7. -/
theorem PlotTypes_string_codec_witness :
    PlotTypes.FromString 0 (PlotTypes.String Bar) = (Bar, none) ∧
    (PlotTypes.FromString 0 "bar").2 ≠ none ∧
    PlotTypes.String 7 = "PlotTypes(" ++ FormatInt10 7 ++ ")" ∧
    (PlotTypes.FromString 0 (PlotTypes.String 7)).2 ≠ none :=
  ⟨(PlotTypes_string_codec 0 Bar "bar").1 (Or.inr (Or.inl rfl)),
    ((PlotTypes_string_codec 0 Bar "bar").2.1.1).mpr (by decide),
    ((PlotTypes_string_codec 0 7 "bar").2.2 (Or.inr (by decide))).1,
    ((PlotTypes_string_codec 0 7 "bar").2.2 (Or.inr (by decide))).2.1⟩

end eplot
